import Mathlib

/-!
The capabilities-string parser, the VCP operations and the argument parsing of
`monitor_util`: a shallow embedding of `src/monitor_util.cpp`.

* `std::string` is a `List Char`; `std::vector<T>` is a `List T`.
* `DWORD`, `uint32_t` and `uint8_t` values are natural numbers, reduced modulo
  `2 ^ 32` or `2 ^ 8` at the places where the source narrows them.
* `std::vector::at` and `std::string::substr` throw `std::out_of_range`; the
  tokenizer therefore returns an `Except Fault`, and recursion is bounded by fuel.
* `tokenizeFrom` and `ParseToken` recurse on a call stack without bound;
  `tokenizeWithin` and `ParseTokenWithin` are the same functions on a call stack
  with room for a given number of nested calls, where deeper nesting overflows.
* The platform calls (`GetVCPFeatureAndVCPFeatureReply`, `SetVCPFeature`) are a
  state machine `Transport` over an abstract monitor state, and every call is
  recorded in a trace.
* The library routines the program uses (`std::isxdigit`, `_stricmp`, formatted
  stream extraction) are modelled after their documented behaviour.
-/

namespace MonitorUtil

/-! ## Data model -/

/-- The `struct Token` of the source: the token text and the tokens of its group. -/
structure Token where
  Value : List Char
  Children : List Token

/-- The `enum class VCPCapabilityElementType`. -/
inductive VCPCapabilityElementType where
  | Tree
  | Leaf
deriving DecidableEq, Repr

/-- The `enum class VCPCapabilityValueType`. -/
inductive VCPCapabilityValueType where
  | Text
  | VCPCode
deriving DecidableEq, Repr

/-- The `std::variant<std::string, int>` held by a capability element. -/
inductive VCPValue where
  | text (s : List Char)
  | code (n : Int)
deriving DecidableEq, Repr

/-- The `struct VCPCapabilityElement` of the source. -/
structure VCPCapabilityElement where
  Value : VCPValue
  Children : List VCPCapabilityElement
  ElementType : VCPCapabilityElementType
  ValueType : VCPCapabilityValueType

mutual
/-- Decidable equality of tokens. -/
def Token.decEq : (a b : Token) → Decidable (a = b)
  | ⟨v, cs⟩, ⟨w, ds⟩ =>
    if h : v = w then
      match Token.decEqList cs ds with
      | isTrue h2 => isTrue (by rw [h, h2])
      | isFalse h2 => isFalse (fun e => h2 (Token.mk.inj e).2)
    else isFalse (fun e => h (Token.mk.inj e).1)
/-- Decidable equality of token lists. -/
def Token.decEqList : (a b : List Token) → Decidable (a = b)
  | [], [] => isTrue rfl
  | [], _ :: _ => isFalse (fun e => List.noConfusion e)
  | _ :: _, [] => isFalse (fun e => List.noConfusion e)
  | a :: as, b :: bs =>
    match Token.decEq a b with
    | isTrue h =>
      match Token.decEqList as bs with
      | isTrue h2 => isTrue (by rw [h, h2])
      | isFalse h2 => isFalse (fun e => h2 (List.cons.inj e).2)
    | isFalse h => isFalse (fun e => h (List.cons.inj e).1)
end

instance : DecidableEq Token := Token.decEq

mutual
/-- Decidable equality of capability elements. -/
def VCPCapabilityElement.decEq : (a b : VCPCapabilityElement) → Decidable (a = b)
  | ⟨v, cs, e, t⟩, ⟨w, ds, f, u⟩ =>
    if h : v = w ∧ e = f ∧ t = u then
      match VCPCapabilityElement.decEqList cs ds with
      | isTrue h2 => isTrue (by rw [h.1, h.2.1, h.2.2, h2])
      | isFalse h2 => isFalse (fun e => h2 (VCPCapabilityElement.mk.inj e).2.1)
    else
      isFalse (fun e =>
        h ⟨(VCPCapabilityElement.mk.inj e).1, (VCPCapabilityElement.mk.inj e).2.2.1,
          (VCPCapabilityElement.mk.inj e).2.2.2⟩)
/-- Decidable equality of capability element lists. -/
def VCPCapabilityElement.decEqList : (a b : List VCPCapabilityElement) → Decidable (a = b)
  | [], [] => isTrue rfl
  | [], _ :: _ => isFalse (fun e => List.noConfusion e)
  | _ :: _, [] => isFalse (fun e => List.noConfusion e)
  | a :: as, b :: bs =>
    match VCPCapabilityElement.decEq a b with
    | isTrue h =>
      match VCPCapabilityElement.decEqList as bs with
      | isTrue h2 => isTrue (by rw [h, h2])
      | isFalse h2 => isFalse (fun e => h2 (List.cons.inj e).2)
    | isFalse h => isFalse (fun e => h (List.cons.inj e).1)
end

instance : DecidableEq VCPCapabilityElement := VCPCapabilityElement.decEq

/-- The ways a run can stop without a result: a bounds-checked access
(`characters.at(index)`, `capabilities.substr(index + 1)`) out of range, the recursion
bound of the model exhausted, the call stack exhausted by nested calls, or behaviour
the language leaves undefined (a `std::string` built from a null or unterminated
buffer). -/
inductive Fault where
  | outOfRange
  | outOfFuel
  | stackOverflow
  | undefinedBehaviour
deriving DecidableEq, Repr

instance {ε α : Type} [DecidableEq ε] [DecidableEq α] : DecidableEq (Except ε α)
  | .ok a, .ok b => if h : a = b then isTrue (by rw [h]) else isFalse (fun e => h (Except.ok.inj e))
  | .error a, .error b =>
    if h : a = b then isTrue (by rw [h]) else isFalse (fun e => h (Except.error.inj e))
  | .ok _, .error _ => isFalse (fun e => Except.noConfusion e)
  | .error _, .ok _ => isFalse (fun e => Except.noConfusion e)

/-! ## Library routines -/

/-- The `std::isxdigit` test of `<cctype>` in the "C" locale: `0-9`, `a-f`, `A-F`;
characters outside ASCII are not hexadecimal digits. -/
def isxdigit (c : Char) : Bool :=
  (48 ≤ c.toNat && c.toNat ≤ 57) || (97 ≤ c.toNat && c.toNat ≤ 102) ||
    (65 ≤ c.toNat && c.toNat ≤ 70)

/-- The `std::isspace` test in the "C" locale: space, `\t`, `\n`, `\v`, `\f`, `\r`. -/
def isspace (c : Char) : Bool :=
  c.toNat = 32 || (9 ≤ c.toNat && c.toNat ≤ 13)

/-- Value of a character as a digit in `base` (10 or 16), as numeric extraction
accepts it; `none` when the character is not a digit of that base. -/
def digitOf (base : Nat) (c : Char) : Option Nat :=
  let n := c.toNat
  if 48 ≤ n ∧ n ≤ 57 then some (n - 48)
  else if base = 16 ∧ 97 ≤ n ∧ n ≤ 102 then some (n - 87)
  else if base = 16 ∧ 65 ≤ n ∧ n ≤ 70 then some (n - 55)
  else none

/-- The longest prefix of digits of `base`, as digit values. -/
def takeDigits (base : Nat) : List Char → List Nat
  | [] => []
  | c :: cs =>
    match digitOf base c with
    | some d => d :: takeDigits base cs
    | none => []

/-- The numeric field gathered by formatted extraction: its sign and its digits. -/
structure NumField where
  negative : Bool
  digits : List Nat

/-- Gathering of a numeric field by `operator>>`: leading white space is skipped, one
sign is accepted, in base 16 a `0x` / `0X` prefix is skipped, then digits are taken. -/
def getField (base : Nat) (s : List Char) : NumField :=
  let s1 := s.dropWhile isspace
  let signed : Bool × List Char :=
    match s1 with
    | '-' :: r => (true, r)
    | '+' :: r => (false, r)
    | r => (false, r)
  let body : List Char :=
    match signed.2 with
    | '0' :: x :: r => if base = 16 ∧ (x = 'x' ∨ x = 'X') then r else signed.2
    | r => r
  ⟨signed.1, takeDigits base body⟩

/-- The magnitude of a digit sequence, most significant digit first. -/
def magnitude (base : Nat) (digits : List Nat) : Nat :=
  digits.foldl (fun acc d => acc * base + d) 0

/-- What a formatted extraction leaves behind: the value stored and whether the
stream's fail state was set. -/
structure Extracted (α : Type) where
  value : α
  fail : Bool

/-- Extraction `ss >> x` for `uint32_t x` holding `old`: on an empty or all-space
stream the sentry fails and `x` keeps `old`; otherwise no digits stores 0 and fails, a
magnitude above `UINT_MAX` stores `UINT_MAX` and fails, a minus sign negates modulo
`2 ^ 32`. -/
def extractUInt32 (old : Nat) (base : Nat) (s : List Char) : Extracted Nat :=
  let f := getField base s
  if s.dropWhile isspace = [] then ⟨old, true⟩
  else if f.digits = [] then ⟨0, true⟩
  else
    let m := magnitude base f.digits
    if 4294967295 < m then ⟨4294967295, true⟩
    else if f.negative then ⟨(4294967296 - m) % 4294967296, false⟩
    else ⟨m, false⟩

/-- Extraction `ss >> x` for `int x`: no digits stores 0 and fails, a value outside
the range of `int` stores the nearest bound and fails. -/
def extractInt (base : Nat) (s : List Char) : Extracted Int :=
  let f := getField base s
  if f.digits = [] then ⟨0, true⟩
  else
    let m : Int := magnitude base f.digits
    let v : Int := if f.negative then -m else m
    if v < -2147483648 then ⟨-2147483648, true⟩
    else if 2147483647 < v then ⟨2147483647, true⟩
    else ⟨v, false⟩

/-- Extraction `ss >> x` for `bool x` holding `old` (no `boolalpha`): on an empty or
all-space stream the sentry fails and `x` keeps `old`; otherwise the field is read as
an integer; 0 stores `false`, 1 stores `true`, any other value stores `true` and fails;
no digits stores `false` and fails. -/
def extractBool (old : Bool) (base : Nat) (s : List Char) : Extracted Bool :=
  let f := getField base s
  if s.dropWhile isspace = [] then ⟨old, true⟩
  else if f.digits = [] then ⟨false, true⟩
  else
    let m := magnitude base f.digits
    if m = 0 then ⟨false, false⟩
    else if m = 1 ∧ f.negative = false then ⟨true, false⟩
    else ⟨true, true⟩

/-- The constant `std::ios_base::failbit`, a non-zero bit of the `iostate` bitmask
(`0x2` in the platform's library). -/
def failbit : Nat := 2

/-- The C string a `std::string` yields through `c_str()`: it ends at the first NUL. -/
def c_str (s : List Char) : List Char :=
  s.takeWhile (fun c => c.toNat ≠ 0)

/-- The `tolower` of the "C" locale, which `_stricmp` applies to each character. -/
def tolower (c : Char) : Char :=
  if 65 ≤ c.toNat ∧ c.toNat ≤ 90 then Char.ofNat (c.toNat + 32) else c

/-! ## Capabilities parser -/

/-- The loop of `TokenizeLowLevelCapabilitiesString(capabilities, tokens)` from the
iteration at `index` on, with the in-flight `token` and the output vector `tokens`.
The result is the returned `index` and the final content of `*tokens`.  The recursive
call of the source starts the same loop at index 0 on `capabilities.substr(index + 1)`
with a fresh token and `token.Children` as its output vector.  The `int` index of the
source is a natural number here, which agrees with it for strings shorter than
`2 ^ 31` characters.  The recursion is taken on a call stack without bound:
`tokenizeWithin` below is the same loop on a bounded call stack. -/
def tokenizeFrom : Nat → List Char → Nat → Token → List Token →
    Except Fault (Nat × List Token)
  | 0, _, _, _, _ => .error .outOfFuel
  | fuel + 1, capabilities, index, token, tokens =>
    if index < capabilities.length then
      match capabilities[index]? with
      | none => .error .outOfRange
      | some c =>
        if c = '(' then
          if capabilities.length < index + 1 then .error .outOfRange
          else
            match tokenizeFrom fuel (capabilities.drop (index + 1)) 0 ⟨[], []⟩
                token.Children with
            | .error e => .error e
            | .ok (r, children) =>
              tokenizeFrom fuel capabilities (index + (r + 1) + 1) ⟨[], []⟩
                (tokens ++ [⟨token.Value, children⟩])
        else if c = ')' then .ok (index, tokens ++ [token])
        else if c = ' ' then
          tokenizeFrom fuel capabilities (index + 1) ⟨[], []⟩ (tokens ++ [token])
        else
          tokenizeFrom fuel capabilities (index + 1) ⟨token.Value ++ [c], token.Children⟩
            tokens
    else .ok (index, tokens)

/-- The one-argument `TokenizeLowLevelCapabilitiesString`: the tokens of the string. -/
def TokenizeLowLevelCapabilitiesString (capabilities : List Char) :
    Except Fault (List Token) :=
  match tokenizeFrom (capabilities.length + 1) capabilities 0 ⟨[], []⟩ [] with
  | .error e => .error e
  | .ok (_, tokens) => .ok tokens

mutual
/-- The `ParseToken` of the source. -/
def ParseToken : Token → VCPCapabilityElement
  | ⟨value, children⟩ =>
    let classified : VCPValue × VCPCapabilityValueType :=
      if value.length = 2 ∧ isxdigit (value.getD 0 ' ') = true ∧
          isxdigit (value.getD 1 ' ') = true then
        (VCPValue.code (extractInt 16 value).value, VCPCapabilityValueType.VCPCode)
      else (VCPValue.text value, VCPCapabilityValueType.Text)
    match children with
    | [] => ⟨classified.1, [], VCPCapabilityElementType.Leaf, classified.2⟩
    | c :: cs =>
      ⟨classified.1, ParseToken c :: parseChildren cs, VCPCapabilityElementType.Tree,
        classified.2⟩
/-- The loop `for (child : token.Children) element.Children.push_back(ParseToken(child))`. -/
def parseChildren : List Token → List VCPCapabilityElement
  | [] => []
  | c :: cs => ParseToken c :: parseChildren cs
end

/-- The `ParseLowLevelCapabilitiesString` of the source. -/
def ParseLowLevelCapabilitiesString (capabilities : List Char) :
    Except Fault (List VCPCapabilityElement) :=
  match TokenizeLowLevelCapabilitiesString capabilities with
  | .error e => .error e
  | .ok tokens => .ok (parseChildren tokens)

/-! ### The parser on a bounded call stack -/

mutual
/-- The `ParseToken` of the source on a call stack with room for `frames` further
nested calls: the calls for the children of a token take one of them. -/
def ParseTokenWithin : Nat → Token → Except Fault VCPCapabilityElement
  | frames, ⟨value, children⟩ =>
    let classified : VCPValue × VCPCapabilityValueType :=
      if value.length = 2 ∧ isxdigit (value.getD 0 ' ') = true ∧
          isxdigit (value.getD 1 ' ') = true then
        (VCPValue.code (extractInt 16 value).value, VCPCapabilityValueType.VCPCode)
      else (VCPValue.text value, VCPCapabilityValueType.Text)
    match children with
    | [] => .ok ⟨classified.1, [], VCPCapabilityElementType.Leaf, classified.2⟩
    | c :: cs =>
      match frames with
      | 0 => .error .stackOverflow
      | below + 1 =>
        match ParseTokenWithin below c with
        | .error e => .error e
        | .ok first =>
          match parseChildrenWithin below cs with
          | .error e => .error e
          | .ok others =>
            .ok ⟨classified.1, first :: others, VCPCapabilityElementType.Tree, classified.2⟩
/-- The loop over the tokens of one vector, each parsed with room for `frames` nested
calls. -/
def parseChildrenWithin : Nat → List Token → Except Fault (List VCPCapabilityElement)
  | _, [] => .ok []
  | frames, c :: cs =>
    match ParseTokenWithin frames c with
    | .error e => .error e
    | .ok first =>
      match parseChildrenWithin frames cs with
      | .error e => .error e
      | .ok others => .ok (first :: others)
end

mutual
/-- A token written back as text: its value, followed by its children in parentheses
when it has any. -/
def renderToken : Token → List Char
  | ⟨value, children⟩ =>
    match children with
    | [] => value
    | c :: cs => value ++ '(' :: (renderTokens (c :: cs) ++ [')'])
/-- Sibling tokens written back as text, joined by one space. -/
def renderTokens : List Token → List Char
  | [] => []
  | t :: ts =>
    match ts with
    | [] => renderToken t
    | _ :: _ => renderToken t ++ ' ' :: renderTokens ts
end

/-- A character that is neither a separator nor a parenthesis. -/
def isWordChar (c : Char) : Bool :=
  c ≠ ' ' && c ≠ '(' && c ≠ ')'

/-! ### The tokenizer as a machine with an explicit stack -/

/-- The tokenizer run over the remaining characters with the suspended callers on an
explicit stack: each frame holds a caller's output vector and in-flight token.  At the
end of the input every suspended caller pushes its token with the children collected
so far; an in-flight token is not pushed. -/
def run : List (List Token × Token) → Token → List Token → List Char → List Token
  | stack, _, tokens, [] =>
    stack.foldl (fun inner frame => frame.1 ++ [⟨frame.2.Value, inner⟩]) tokens
  | stack, token, tokens, c :: cs =>
    if c = '(' then run ((tokens, token) :: stack) ⟨[], []⟩ token.Children cs
    else if c = ')' then
      match stack with
      | [] => tokens ++ [token]
      | frame :: below => run below ⟨[], []⟩ (frame.1 ++ [⟨frame.2.Value, tokens ++ [token]⟩]) cs
    else if c = ' ' then run stack ⟨[], []⟩ (tokens ++ [token]) cs
    else run stack ⟨token.Value ++ [c], token.Children⟩ tokens cs

/-- Return of a finished call to its suspended caller, which pushes its token with the
children `out` and goes on with `rest`; with no caller, `out` is the result. -/
def resume (stack : List (List Token × Token)) (out : List Token) (rest : List Char) :
    List Token :=
  match stack with
  | [] => out
  | frame :: below => run below ⟨[], []⟩ (frame.1 ++ [⟨frame.2.Value, out⟩]) rest

/-! ## VCP operation layer -/

/-- The `struct VCPFeatureResult` of the source. -/
structure VCPFeatureResult where
  Success : Bool
  CodeType : Nat
  CurrentValue : Nat
  MaxValue : Nat
deriving DecidableEq, Repr

/-- The platform's DDC/CI calls on a monitor whose state has type `σ`:
`GetVCPFeatureAndVCPFeatureReply` yields the reply record as the call leaves it, and
`SetVCPFeature` yields whether the write succeeded. -/
structure Transport (σ : Type) where
  GetVCPFeatureAndVCPFeatureReply : σ → Nat → σ × VCPFeatureResult
  SetVCPFeature : σ → Nat → Nat → σ × Bool

/-- A call issued to the transport: a read of a feature or a write of a value to it. -/
inductive Call where
  | read (code : Nat)
  | write (code : Nat) (value : Nat)
deriving DecidableEq, Repr

/-- The monitor state together with the calls issued so far, oldest first. -/
structure World (σ : Type) where
  state : σ
  calls : List Call

/-- The writes among the issued calls. -/
def writesOf (calls : List Call) : List Call :=
  calls.filter (fun c => match c with
    | .write _ _ => true
    | .read _ => false)

/-- The reads among the issued calls. -/
def readsOf (calls : List Call) : List Call :=
  calls.filter (fun c => match c with
    | .write _ _ => false
    | .read _ => true)

/-- The `MonitorUtils::GetVCPFeature` of the source; `code` is narrowed to `uint8_t`. -/
def GetVCPFeature {σ : Type} (T : Transport σ) (w : World σ) (code : Nat) :
    World σ × VCPFeatureResult :=
  let reply := T.GetVCPFeatureAndVCPFeatureReply w.state (code % 256)
  (⟨reply.1, w.calls ++ [Call.read (code % 256)]⟩, reply.2)

/-- The `MonitorUtils::SetVCPFeature` of the source; `code` is narrowed to `uint8_t`
and `value` to `uint32_t`. -/
def SetVCPFeature {σ : Type} (T : Transport σ) (w : World σ) (code value : Nat) :
    World σ × Bool :=
  let reply := T.SetVCPFeature w.state (code % 256) (value % 4294967296)
  (⟨reply.1, w.calls ++ [Call.write (code % 256) (value % 4294967296)]⟩, reply.2)

/-- The loop of `Verify`: `polls` is the number of times the deadline test
`now - startTime < 3000 ms` still holds, `result` the record held so far. -/
def verifyLoop {σ : Type} (T : Transport σ) (vcpCode vcpValue : Nat) :
    Nat → World σ → VCPFeatureResult → World σ × VCPFeatureResult
  | 0, w, result => (w, result)
  | polls + 1, w, _ =>
    let read := GetVCPFeature T w vcpCode
    if read.2.Success = true ∧ read.2.CurrentValue = vcpValue then read
    else verifyLoop T vcpCode vcpValue polls read.1 read.2

/-- The `Verify` of the source.  The local `result` is declared without an
initialiser, so its fields other than `Success` start with the indeterminate content
`uninit`. -/
def Verify {σ : Type} (T : Transport σ) (polls : Nat) (uninit : VCPFeatureResult)
    (w : World σ) (vcpCode vcpValue : Nat) : World σ × VCPFeatureResult :=
  verifyLoop T vcpCode vcpValue polls w { uninit with Success := false }

/-- The replies the transport gives to `polls` successive reads of `code`. -/
def readReplies {σ : Type} (T : Transport σ) (code : Nat) :
    Nat → World σ → List VCPFeatureResult
  | 0, _ => []
  | polls + 1, w =>
    (GetVCPFeature T w code).2 :: readReplies T code polls (GetVCPFeature T w code).1

/-- The `Toggle` of the source. -/
def Toggle {σ : Type} (T : Transport σ) (polls : Nat) (uninit : VCPFeatureResult)
    (w : World σ) (verify : Bool) : World σ × Bool :=
  let inputSourceCode := 0x60
  let read := GetVCPFeature T w inputSourceCode
  if read.2.Success then
    let inputSourceHdmi := 0x11
    let inputSourceDisplayPort := 0xF
    let toggledInputSource :=
      if read.2.CurrentValue = inputSourceHdmi then inputSourceDisplayPort else inputSourceHdmi
    let written := SetVCPFeature T read.1 inputSourceCode toggledInputSource
    if written.2 then
      if verify then
        let verified := Verify T polls uninit written.1 inputSourceCode toggledInputSource
        (verified.1, verified.2.Success)
      else (written.1, true)
    else (written.1, false)
  else (read.1, false)

/-! ## Command driver -/

/-- The `struct Arguments` of the source with its default member initialisers;
`MonitorIndex` is declared `bool`. -/
structure Arguments where
  Valid : Bool := false
  MonitorIndex : Bool := false
  PrintInfo : Bool := false
  PrintCapabilities : Bool := false
  SetVCPFeature : Bool := false
  SetVCPFeatureAddress : Nat := 0
  SetVCPFeatureValue : Nat := 0
  GetVCPFeature : Bool := false
  GetVCPFeatureAddress : Nat := 0
  Verify : Bool := false
  Toggle : Bool := false
deriving DecidableEq, Repr

/-- The `ICompare` of the source: `_stricmp` of the two C strings is 0. -/
def ICompare (a b : List Char) : Bool :=
  (c_str a).map tolower = (c_str b).map tolower

/-- The `GetHex` of the source, with `out` the content of `*out` before the call: the
value the extraction in base 16 leaves in `*out` is returned with the `bool`, which is
the constant `ss.failbit` converted to `bool`. -/
def GetHex {α : Type} (extract : α → Nat → List Char → Extracted α) (out : α)
    (s : List Char) : Bool × α :=
  (decide (failbit ≠ 0), (extract out 16 s).value)

/-- The `Get` of the source, with `out` the content of `*out` before the call: `0x` /
`0X` followed by at least one more character goes to `GetHex` without the prefix,
anything else is extracted in base 10; the returned `bool` is the constant
`ss.failbit` converted to `bool`. -/
def Get {α : Type} (extract : α → Nat → List Char → Extracted α) (out : α)
    (s : List Char) : Bool × α :=
  if s.length > 2 ∧ s.getD 0 ' ' = '0' ∧ (s.getD 1 ' ' = 'x' ∨ s.getD 1 ' ' = 'X') then
    GetHex extract out (s.drop 2)
  else (decide (failbit ≠ 0), (extract out 10 s).value)

/-- The branches of the `if` / `else if` chain in the loop of `ParseArguments`. -/
inductive Flag where
  | monitor
  | info
  | capabilities
  | get
  | set
  | verify
  | toggle
  | unsupported
deriving DecidableEq, Repr

/-- The `if` / `else if` chain in the loop of `ParseArguments`: the first branch whose
`ICompare` tests accept `arg`, in the order of the source. -/
def classify (arg : List Char) : Flag :=
  if ICompare "--monitor".toList arg || ICompare "-m".toList arg then Flag.monitor
  else if ICompare "--info".toList arg || ICompare "-i".toList arg then Flag.info
  else if ICompare "--capabilities".toList arg || ICompare "-c".toList arg then Flag.capabilities
  else if ICompare "--get".toList arg || ICompare "-g".toList arg then Flag.get
  else if ICompare "--set".toList arg || ICompare "-s".toList arg then Flag.set
  else if ICompare "--verify".toList arg || ICompare "-v".toList arg then Flag.verify
  else if ICompare "--toggle".toList arg then Flag.toggle
  else Flag.unsupported

/-- The `for` loop of `ParseArguments` over the arguments not yet consumed; a `break`
returns the record as it stands. -/
def parseLoop : List (List Char) → Arguments → Arguments
  | [], arguments => arguments
  | arg :: rest, arguments =>
    match classify arg with
    | Flag.monitor =>
      match rest with
      | [] => { arguments with Valid := false }
      | param :: rest =>
        let got := Get extractBool arguments.MonitorIndex param
        if !got.1 then { arguments with MonitorIndex := got.2, Valid := false }
        else parseLoop rest { arguments with MonitorIndex := got.2 }
    | Flag.info => parseLoop rest { arguments with PrintInfo := true }
    | Flag.capabilities => parseLoop rest { arguments with PrintCapabilities := true }
    | Flag.get =>
      match rest with
      | [] => { arguments with GetVCPFeature := true, Valid := false }
      | param :: rest =>
        let got := Get extractUInt32 arguments.GetVCPFeatureAddress param
        if !got.1 then
          { arguments with GetVCPFeature := true, GetVCPFeatureAddress := got.2, Valid := false }
        else
          parseLoop rest
            { arguments with GetVCPFeature := true, GetVCPFeatureAddress := got.2 % 256 }
    | Flag.set =>
      match rest with
      | [] => { arguments with SetVCPFeature := true, Valid := false }
      | param :: rest =>
        let got := Get extractUInt32 arguments.SetVCPFeatureAddress param
        if !got.1 then
          { arguments with SetVCPFeature := true, SetVCPFeatureAddress := got.2, Valid := false }
        else
          match rest with
          | [] =>
            { arguments with
              SetVCPFeature := true, SetVCPFeatureAddress := got.2 % 256, Valid := false }
          | param2 :: rest =>
            let got2 := Get extractUInt32 arguments.SetVCPFeatureValue param2
            if !got2.1 then
              { arguments with
                SetVCPFeature := true, SetVCPFeatureAddress := got.2 % 256,
                SetVCPFeatureValue := got2.2, Valid := false }
            else
              parseLoop rest
                { arguments with
                  SetVCPFeature := true, SetVCPFeatureAddress := got.2 % 256,
                  SetVCPFeatureValue := got2.2 }
    | Flag.verify => parseLoop rest { arguments with Verify := true }
    | Flag.toggle => parseLoop rest { arguments with Toggle := true }
    | Flag.unsupported => { arguments with Valid := false }

/-- The `ParseArguments` of the source: the loop from a record with `Valid` set,
followed by the post validation of `--get` against `--set`. -/
def ParseArguments (args : List (List Char)) : Arguments :=
  let arguments := parseLoop args { Valid := true }
  if arguments.GetVCPFeature && arguments.SetVCPFeature then { arguments with Valid := false }
  else arguments

/-- The start of `main`: exit code 1 (after the usage line) when the arguments are not
valid; otherwise the monitor actions run. -/
def mainUsageExit (argTokens : List (List Char)) : Option Nat :=
  if !(ParseArguments argTokens).Valid then some 1 else none


/-- The `struct LowLevelCapabilities` of the source; a value-initialised record is not
valid and holds a value-initialised element. -/
structure LowLevelCapabilities where
  Valid : Bool := false
  Capabilities : VCPCapabilityElement :=
    ⟨VCPValue.text [], [], VCPCapabilityElementType.Tree, VCPCapabilityValueType.Text⟩
deriving DecidableEq

/-- The `GetLowLevelCapabilities` of the source, given what the two platform calls
yield: `none` when the length query or the fetch fails, else the fetched buffer of the
reported length.  `std::string{ buffer.data() }` reads the buffer as a C string, up to
its first NUL; a buffer of length 0 has a null `data()` and a buffer without a NUL is
read past its end, which is undefined behaviour.  The first parsed element becomes the
root when there is one.  The string is parsed on a call stack without bound. -/
def GetLowLevelCapabilities (reply : Option (List Char)) : Except Fault LowLevelCapabilities :=
  match reply with
  | none => .ok {}
  | some buffer =>
    if buffer.all (fun c => c.toNat ≠ 0) then .error .undefinedBehaviour
    else
      let lowLevelCapabilitiesString := c_str buffer
      match TokenizeLowLevelCapabilitiesString lowLevelCapabilitiesString with
      | .error e => .error e
      | .ok _ =>
        match ParseLowLevelCapabilitiesString lowLevelCapabilitiesString with
        | .error e => .error e
        | .ok [] => .ok {}
        | .ok (element :: _) => .ok { Valid := true, Capabilities := element }

/-! ## Notions the properties are stated with -/

/-- The hexadecimal digits, in either case. -/
def hexDigits : List Char := "0123456789abcdefABCDEF".toList

/-- The base-16 value of a hexadecimal digit: its position among `0-9a-f` or `0-9A-F`. -/
def hexDigitValue (c : Char) : Nat :=
  min ("0123456789abcdef".toList.indexOf c) ("0123456789ABCDEF".toList.indexOf c)

/-- A leaf element holding the VCP code `n`. -/
def codeLeaf (n : Int) : VCPCapabilityElement :=
  ⟨VCPValue.code n, [], VCPCapabilityElementType.Leaf, VCPCapabilityValueType.VCPCode⟩

/-- The capabilities string of the printing scenario. -/
def scenarioCapabilities : List Char := "vcp(02 60(0F 11)) cmds(01)".toList

/-- A transport whose reads always succeed with the current value `0x4b` of maximum
100, and whose writes succeed without effect. -/
def stuckTransport : Transport Unit where
  GetVCPFeatureAndVCPFeatureReply := fun s _ => (s, ⟨true, 0, 0x4b, 100⟩)
  SetVCPFeature := fun s _ _ => (s, true)

/-- A transport over the current value of the input source: reads succeed with it,
writes succeed and replace it. -/
def echoTransport : Transport Nat where
  GetVCPFeatureAndVCPFeatureReply := fun s _ => (s, ⟨true, 0, s, 255⟩)
  SetVCPFeature := fun _ _ value => (value, true)

/-- The decimal digits. -/
def decimalDigits : List Char := "0123456789".toList

/-- The number a sequence of digits of `base` writes, most significant digit first. -/
def numeralValue (base : Nat) (digits : List Char) : Nat :=
  digits.foldl (fun acc c => acc * base + hexDigitValue c) 0

/-- The token `s` writes the number `n`: as a decimal numeral, or as `0x` / `0X`
followed by hexadecimal digits. -/
def Writes (s : List Char) (n : Nat) : Prop :=
  (s ≠ [] ∧ (∀ c ∈ s, c ∈ decimalDigits) ∧ numeralValue 10 s = n) ∨
  (∃ hs, hs ≠ [] ∧ (∀ c ∈ hs, c ∈ hexDigits) ∧ (s = '0' :: 'x' :: hs ∨ s = '0' :: 'X' :: hs) ∧
    numeralValue 16 hs = n)

/-- The index `main` hands to `GetMonitor(int index)`: the `bool` field
`args.MonitorIndex` converted to `int`, when the arguments are valid. -/
def mainMonitorIndex (argTokens : List (List Char)) : Option Int :=
  if !(ParseArguments argTokens).Valid then none
  else some (if (ParseArguments argTokens).MonitorIndex then 1 else 0)

/-- The line `PrintLowLevelCapabilities` writes to standard error: none when the
capabilities are valid (the tree is printed instead). -/
def PrintLowLevelCapabilities (lowLevelCapabilties : LowLevelCapabilities) : Option String :=
  if lowLevelCapabilties.Valid then none
  else some "Could not obtain low-level capabilities."

/-- A leaf element holding the empty text. -/
def emptyTextLeaf : VCPCapabilityElement :=
  ⟨VCPValue.text [], [], VCPCapabilityElementType.Leaf, VCPCapabilityValueType.Text⟩

/-- Parentheses of a string are matched, read from nesting depth `depth`: no closing
parenthesis comes without an open group, and the string ends at depth 0. -/
def matchedFrom : Nat → List Char → Bool
  | depth, [] => depth = 0
  | depth, c :: cs =>
    if c = '(' then matchedFrom (depth + 1) cs
    else if c = ')' then
      match depth with
      | 0 => false
      | d + 1 => matchedFrom d cs
    else matchedFrom depth cs

/-- The parentheses of a string are matched. -/
def Matched (s : List Char) : Prop :=
  matchedFrom 0 s = true

instance (s : List Char) : Decidable (Matched s) :=
  inferInstanceAs (Decidable (matchedFrom 0 s = true))

/-- Whether the character `y` may follow the character `x` in a well-formed
capabilities string: a token starts after a space, a token or the closing parenthesis
of an empty group after an opening parenthesis, and a separator or another closing
parenthesis after a closing parenthesis. -/
def mayFollow (x y : Char) : Bool :=
  if x = ' ' then isWordChar y
  else if x = '(' then isWordChar y || y = ')'
  else if x = ')' then y = ' ' || y = ')'
  else true

/-- Every character of the string may follow the one before it. -/
def adjacentOk : List Char → Bool
  | [] => true
  | x :: rest =>
    (match rest with
      | [] => true
      | y :: _ => mayFollow x y) && adjacentOk rest

/-- The conditions of a well-formed capabilities string, checked on the string: the
parentheses are matched; every token is non-empty and tokens are separated by single
spaces, that is, the string and what follows a space start with a character of a token,
an opening parenthesis is followed by such a character or by the closing parenthesis of
an empty group, and a closing parenthesis by a space or another closing parenthesis; no
space leads or trails. -/
def wellFormedString (s : List Char) : Bool :=
  matchedFrom 0 s && adjacentOk s &&
    (match s with
      | [] => true
      | c :: _ => isWordChar c) &&
    s.getLast? != some ' '

/-- A well-formed capabilities string. -/
def WellFormed (s : List Char) : Prop :=
  wellFormedString s = true

instance (s : List Char) : Decidable (WellFormed s) :=
  inferInstanceAs (Decidable (wellFormedString s = true))

/-- The string with one space inserted after every closing parenthesis. -/
def spaced : List Char → List Char
  | [] => []
  | c :: cs => if c = ')' then ')' :: ' ' :: spaced cs else c :: spaced cs

/-- The text of the suspended callers of the stack machine, outermost first: for each
caller its output vector followed by its in-flight value, and the opening parenthesis
of the group being read. -/
def renderStack : List (List Token × Token) → List Char
  | [] => []
  | frame :: below =>
    renderStack below ++ (renderTokens (frame.1 ++ [⟨frame.2.Value, []⟩]) ++ ['('])

mutual
/-- The number of levels of children below a token. -/
def levelsBelow : Token → Nat
  | ⟨_, children⟩ =>
    match children with
    | [] => 0
    | c :: cs => levelsBelowAll (c :: cs) + 1
/-- The largest number of levels of children below a token of the list. -/
def levelsBelowAll : List Token → Nat
  | [] => 0
  | t :: ts => max (levelsBelow t) (levelsBelowAll ts)
end

/-- Left-to-right reading of an argument list by flag positions: whether it reaches a
token that is no recognised flag, `--monitor` (`-m`) or `--get` (`-g`) with no token after it,
or `--set` (`-s`) with fewer than two tokens after it. -/
def reachesUsageError : List (List Char) → Bool
  | [] => false
  | arg :: rest =>
    match classify arg with
    | Flag.monitor =>
      match rest with
      | [] => true
      | _ :: rest => reachesUsageError rest
    | Flag.info => reachesUsageError rest
    | Flag.capabilities => reachesUsageError rest
    | Flag.get =>
      match rest with
      | [] => true
      | _ :: rest => reachesUsageError rest
    | Flag.set =>
      match rest with
      | [] => true
      | _ :: rest =>
        match rest with
        | [] => true
        | _ :: rest => reachesUsageError rest
    | Flag.verify => reachesUsageError rest
    | Flag.toggle => reachesUsageError rest
    | Flag.unsupported => true

/-- Left-to-right reading of an argument list by flag positions: the flags reached, in
order, up to the first usage error. -/
def processedFlags : List (List Char) → List Flag
  | [] => []
  | arg :: rest =>
    match classify arg with
    | Flag.monitor =>
      match rest with
      | [] => [Flag.monitor]
      | _ :: rest => Flag.monitor :: processedFlags rest
    | Flag.info => Flag.info :: processedFlags rest
    | Flag.capabilities => Flag.capabilities :: processedFlags rest
    | Flag.get =>
      match rest with
      | [] => [Flag.get]
      | _ :: rest => Flag.get :: processedFlags rest
    | Flag.set =>
      match rest with
      | [] => [Flag.set]
      | _ :: rest =>
        match rest with
        | [] => [Flag.set]
        | _ :: rest => Flag.set :: processedFlags rest
    | Flag.verify => Flag.verify :: processedFlags rest
    | Flag.toggle => Flag.toggle :: processedFlags rest
    | Flag.unsupported => []

/-- A transport whose reads and writes all fail. -/
def deadTransport : Transport Unit where
  GetVCPFeatureAndVCPFeatureReply := fun s _ => (s, ⟨false, 0, 0, 0⟩)
  SetVCPFeature := fun s _ _ => (s, false)

/-- A transport whose reads succeed with the current value `0x11` and whose writes
fail. -/
def readOnlyTransport : Transport Unit where
  GetVCPFeatureAndVCPFeatureReply := fun s _ => (s, ⟨true, 0, 0x11, 0x12⟩)
  SetVCPFeature := fun s _ _ => (s, false)

/-- A transport that counts its reads and reports the count as the current value. -/
def countingTransport : Transport Nat where
  GetVCPFeatureAndVCPFeatureReply := fun s _ => (s + 1, ⟨true, 0, s, 255⟩)
  SetVCPFeature := fun s _ _ => (s, true)

mutual
/-- A token together with every token below it, at every nesting depth. -/
def tokensWithin : Token → List Token
  | ⟨value, children⟩ => ⟨value, children⟩ :: tokensWithinAll children
/-- Every token of a forest, at every nesting depth. -/
def tokensWithinAll : List Token → List Token
  | [] => []
  | t :: ts => tokensWithin t ++ tokensWithinAll ts
end

/-- Every token of a forest, at every nesting depth, has a value without `' '`, `'('`
and `')'`. -/
def ValuesClean (tokens : List Token) : Prop :=
  ∀ t ∈ tokensWithinAll tokens, ∀ c ∈ t.Value, c ≠ ' ' ∧ c ≠ '(' ∧ c ≠ ')'

/-! ## The recursive tokenizer and the stack machine agree -/

theorem run_nil (stack : List (List Token × Token)) (token : Token) (tokens : List Token) :
    run stack token tokens [] = resume stack tokens [] := by
  cases stack with
  | nil => rfl
  | cons frame below => simp [run, resume]

theorem tokenizeFrom_run (fuel : Nat) :
    ∀ (capabilities : List Char) (index : Nat) (token : Token) (tokens : List Token),
      capabilities.length - index < fuel →
      ∃ r out, tokenizeFrom fuel capabilities index token tokens = .ok (r, out) ∧
        ∀ stack, run stack token tokens (capabilities.drop index) =
          resume stack out (capabilities.drop (r + 1)) := by
  induction fuel with
  | zero => intro _ _ _ _ h; omega
  | succ fuel ih =>
    intro capabilities index token tokens hfuel
    by_cases hlt : index < capabilities.length
    · have hget : capabilities[index]? = some capabilities[index] := List.getElem?_eq_getElem hlt
      have hdrop : capabilities.drop index = capabilities[index] :: capabilities.drop (index + 1) :=
        List.drop_eq_getElem_cons hlt
      by_cases hopen : capabilities[index] = '('
      · obtain ⟨r1, ch, h1, hrun1⟩ :=
          ih (capabilities.drop (index + 1)) 0 ⟨[], []⟩ token.Children (by simp; omega)
        obtain ⟨r, out, h2, hrun2⟩ :=
          ih capabilities (index + (r1 + 1) + 1) ⟨[], []⟩ (tokens ++ [⟨token.Value, ch⟩])
            (by omega)
        refine ⟨r, out, ?_, ?_⟩
        · simp only [tokenizeFrom, hlt, if_true, hget, hopen]
          rw [if_neg (by omega), h1]
          exact h2
        · intro stack
          rw [hdrop, hopen]
          simp only [run, if_true]
          have := hrun1 ((tokens, token) :: stack)
          simp only [List.drop_zero] at this
          rw [this]
          have h3 := hrun2 stack
          rw [show index + (r1 + 1) + 1 = index + 1 + (r1 + 1) by omega] at h3
          rw [← h3]
          simp only [resume, List.drop_drop]
      · by_cases hclose : capabilities[index] = ')'
        · refine ⟨index, tokens ++ [token], ?_, ?_⟩
          · simp [tokenizeFrom, hlt, hget, hclose]
          · intro stack
            rw [hdrop, hclose]
            cases stack with
            | nil => simp [run, resume]
            | cons frame below => simp [run, resume]
        · by_cases hspace : capabilities[index] = ' '
          · obtain ⟨r, out, h2, hrun2⟩ :=
              ih capabilities (index + 1) ⟨[], []⟩ (tokens ++ [token]) (by omega)
            refine ⟨r, out, ?_, ?_⟩
            · simp only [tokenizeFrom, hlt, if_true, hget, hspace]
              simpa using h2
            · intro stack
              rw [hdrop, hspace]
              simpa [run] using hrun2 stack
          · obtain ⟨r, out, h2, hrun2⟩ :=
              ih capabilities (index + 1) ⟨token.Value ++ [capabilities[index]], token.Children⟩
                tokens (by omega)
            refine ⟨r, out, ?_, ?_⟩
            · simp only [tokenizeFrom, hlt, if_true, hget, if_neg hopen, if_neg hclose,
                if_neg hspace]
              exact h2
            · intro stack
              rw [hdrop]
              simp only [run, if_neg hopen, if_neg hclose, if_neg hspace]
              exact hrun2 stack
    · refine ⟨index, tokens, ?_, ?_⟩
      · simp [tokenizeFrom, hlt]
      · intro stack
        rw [List.drop_eq_nil_of_le (by omega), List.drop_eq_nil_of_le (by omega)]
        exact run_nil stack token tokens

/-- The tokenizer always returns, and its result is that of the stack machine started
with no caller, a fresh token and an empty output vector. -/
theorem tokenize_eq_run (capabilities : List Char) :
    TokenizeLowLevelCapabilitiesString capabilities = .ok (run [] ⟨[], []⟩ [] capabilities) := by
  obtain ⟨r, out, h, hrun⟩ :=
    tokenizeFrom_run (capabilities.length + 1) capabilities 0 ⟨[], []⟩ [] (by omega)
  have := hrun []
  simp only [List.drop_zero, resume] at this
  simp [TokenizeLowLevelCapabilitiesString, h, this]


/-! ## Classification of tokens -/

theorem parseChildren_eq_map (ts : List Token) : parseChildren ts = ts.map ParseToken := by
  induction ts with
  | nil => rfl
  | cons t ts ih => simp [parseChildren, ih]

theorem ParseToken_Value (t : Token) :
    (ParseToken t).Value =
      if t.Value.length = 2 ∧ isxdigit (t.Value.getD 0 ' ') = true ∧
          isxdigit (t.Value.getD 1 ' ') = true then
        VCPValue.code (extractInt 16 t.Value).value
      else VCPValue.text t.Value := by
  obtain ⟨v, cs⟩ := t
  cases cs <;> simp only [ParseToken] <;> split <;> rfl

theorem ParseToken_ValueType (t : Token) :
    (ParseToken t).ValueType =
      if t.Value.length = 2 ∧ isxdigit (t.Value.getD 0 ' ') = true ∧
          isxdigit (t.Value.getD 1 ' ') = true then
        VCPCapabilityValueType.VCPCode
      else VCPCapabilityValueType.Text := by
  obtain ⟨v, cs⟩ := t
  cases cs <;> simp only [ParseToken] <;> split <;> rfl

theorem ParseToken_Children (t : Token) :
    (ParseToken t).Children = t.Children.map ParseToken := by
  obtain ⟨v, cs⟩ := t
  cases cs with
  | nil => simp [ParseToken]
  | cons c cs => simp [ParseToken, parseChildren_eq_map]

theorem ParseToken_ElementType (t : Token) :
    (ParseToken t).ElementType =
      if t.Children = [] then VCPCapabilityElementType.Leaf
      else VCPCapabilityElementType.Tree := by
  obtain ⟨v, cs⟩ := t
  cases cs <;> simp [ParseToken]

theorem isxdigit_iff (c : Char) : isxdigit c = true ↔ c ∈ hexDigits := by
  constructor
  · intro h
    have hc : c = Char.ofNat c.toNat := (Char.ofNat_toNat c).symm
    simp only [isxdigit, Bool.or_eq_true, Bool.and_eq_true, decide_eq_true_eq] at h
    rcases h with (⟨h1, h2⟩ | ⟨h1, h2⟩) | ⟨h1, h2⟩ <;> rw [hc] <;>
      interval_cases c.toNat <;> decide
  · intro h
    simp only [hexDigits, String.toList, List.mem_cons, List.mem_singleton] at h
    rcases h with h | h | h | h | h | h | h | h | h | h | h | h | h | h | h | h | h | h | h | h |
      h | h | h <;> first | (subst h; decide) | (simp at h)

theorem hexDigit_facts (c : Char) (h : c ∈ hexDigits) :
    isspace c = false ∧ c ≠ '-' ∧ c ≠ '+' ∧ c ≠ 'x' ∧ c ≠ 'X' ∧
      digitOf 16 c = some (hexDigitValue c) ∧ hexDigitValue c < 16 := by
  simp only [hexDigits, String.toList, List.mem_cons, List.mem_singleton] at h
  rcases h with h | h | h | h | h | h | h | h | h | h | h | h | h | h | h | h | h | h | h | h |
    h | h | h <;> first | (subst h; decide) | (simp at h)

theorem extractInt_two_hex (a b : Char) (ha : a ∈ hexDigits) (hb : b ∈ hexDigits) :
    (extractInt 16 [a, b]).value = ((16 * hexDigitValue a + hexDigitValue b : Nat) : Int) := by
  obtain ⟨ha1, ha2, ha3, -, -, ha6, ha7⟩ := hexDigit_facts a ha
  obtain ⟨-, -, -, hb4, hb5, hb6, hb7⟩ := hexDigit_facts b hb
  have hfield : getField 16 [a, b] = ⟨false, [hexDigitValue a, hexDigitValue b]⟩ := by
    simp only [getField, List.dropWhile, ha1]
    split
    · rename_i heq; simp at heq; exact absurd heq.1 ha2
    · rename_i heq; simp at heq; exact absurd heq.1 ha3
    · simp only []
      split
      · rename_i heq
        simp only [List.cons.injEq] at heq
        obtain ⟨-, hx, -⟩ := heq
        subst hx
        have : ¬ (b = 'x' ∨ b = 'X') := by simp [hb4, hb5]
        simp [this, takeDigits, ha6, hb6]
      · simp [takeDigits, ha6, hb6]
  simp only [extractInt, hfield, magnitude, List.foldl]
  split_ifs <;> first | contradiction | (dsimp only; omega)

/-- C1: `ParseToken` classifies a token as a VCP code exactly when its value is two
hexadecimal digits (either case); the stored integer is then the base-16 value of the
two digits, which lies in 0..255; every other token keeps its value as text. -/
theorem parseToken_classification (t : Token) :
    ((∃ n, (ParseToken t).Value = VCPValue.code n) ↔
        (t.Value.length = 2 ∧ ∀ c ∈ t.Value, c ∈ hexDigits)) ∧
    ((ParseToken t).ValueType = VCPCapabilityValueType.VCPCode ↔
        (t.Value.length = 2 ∧ ∀ c ∈ t.Value, c ∈ hexDigits)) ∧
    (∀ a b, t.Value = [a, b] → a ∈ hexDigits → b ∈ hexDigits →
        (ParseToken t).Value =
            VCPValue.code ((16 * hexDigitValue a + hexDigitValue b : Nat) : Int) ∧
          16 * hexDigitValue a + hexDigitValue b ≤ 255) ∧
    (¬ (t.Value.length = 2 ∧ ∀ c ∈ t.Value, c ∈ hexDigits) →
        (ParseToken t).Value = VCPValue.text t.Value ∧
          (ParseToken t).ValueType = VCPCapabilityValueType.Text) := by
  have hcond : (t.Value.length = 2 ∧ isxdigit (t.Value.getD 0 ' ') = true ∧
      isxdigit (t.Value.getD 1 ' ') = true) ↔
      (t.Value.length = 2 ∧ ∀ c ∈ t.Value, c ∈ hexDigits) := by
    constructor
    · rintro ⟨hl, h0, h1⟩
      refine ⟨hl, ?_⟩
      match hv : t.Value, hl with
      | [a, b], _ =>
        rw [hv] at h0 h1
        simp only [List.getD_cons_zero, List.getD_cons_succ] at h0 h1
        intro c hc
        simp only [List.mem_cons, List.mem_singleton, List.not_mem_nil, or_false] at hc
        rcases hc with hc | hc <;> subst hc
        · exact (isxdigit_iff _).1 h0
        · exact (isxdigit_iff _).1 h1
    · rintro ⟨hl, hall⟩
      refine ⟨hl, ?_⟩
      match hv : t.Value, hl with
      | [a, b], _ =>
        rw [hv] at hall
        simp only [List.getD_cons_zero, List.getD_cons_succ]
        exact ⟨(isxdigit_iff _).2 (hall a (by simp)), (isxdigit_iff _).2 (hall b (by simp))⟩
  rw [ParseToken_Value, ParseToken_ValueType]
  refine ⟨?_, ?_, ?_, ?_⟩
  · by_cases hc : t.Value.length = 2 ∧ isxdigit (t.Value.getD 0 ' ') = true ∧
        isxdigit (t.Value.getD 1 ' ') = true
    · rw [if_pos hc]
      exact ⟨fun _ => hcond.1 hc, fun _ => ⟨_, rfl⟩⟩
    · rw [if_neg hc]
      constructor
      · rintro ⟨n, hn⟩
        cases hn
      · intro h
        exact absurd (hcond.2 h) hc
  · by_cases hc : t.Value.length = 2 ∧ isxdigit (t.Value.getD 0 ' ') = true ∧
        isxdigit (t.Value.getD 1 ' ') = true
    · rw [if_pos hc]
      exact ⟨fun _ => hcond.1 hc, fun _ => rfl⟩
    · rw [if_neg hc]
      constructor
      · intro hn
        cases hn
      · intro h
        exact absurd (hcond.2 h) hc
  · intro a b hv ha hb
    have hc : t.Value.length = 2 ∧ isxdigit (t.Value.getD 0 ' ') = true ∧
        isxdigit (t.Value.getD 1 ' ') = true := by
      rw [hcond, hv]
      refine ⟨rfl, ?_⟩
      intro c hc
      simp only [List.mem_cons, List.mem_singleton, List.not_mem_nil, or_false] at hc
      rcases hc with hc | hc <;> subst hc <;> assumption
    rw [if_pos hc, hv, extractInt_two_hex a b ha hb]
    have := (hexDigit_facts a ha).2.2.2.2.2.2
    have := (hexDigit_facts b hb).2.2.2.2.2.2
    exact ⟨rfl, by omega⟩
  · intro hn
    rw [← hcond] at hn
    rw [if_neg hn, if_neg hn]
    exact ⟨rfl, rfl⟩

/-- The classification at the tokens `6f` and `vcp`. -/
theorem parseToken_classification_witness :
    (∃ n, (ParseToken ⟨"6f".toList, []⟩).Value = VCPValue.code n) ∧
      (ParseToken ⟨"6f".toList, []⟩).Value = VCPValue.code 111 ∧
      (ParseToken ⟨"vcp".toList, []⟩).Value = VCPValue.text "vcp".toList := by
  refine ⟨?_, ?_, ?_⟩
  · exact (parseToken_classification ⟨"6f".toList, []⟩).1.2 (by decide)
  · exact ((parseToken_classification ⟨"6f".toList, []⟩).2.2.1 '6' 'f' rfl (by decide)
      (by decide)).1
  · exact ((parseToken_classification ⟨"vcp".toList, []⟩).2.2.2 (by decide)).1


/-! ## The parse is the image of the tokens -/

/-- C2: `ParseLowLevelCapabilitiesString` is the element-wise `ParseToken` image of the
token list, in order; the children of an element are the images of the token's
children, in order; an element is a leaf exactly when it has no children and a tree
otherwise. -/
theorem parse_is_token_image (s : List Char) :
    (∃ tokens, TokenizeLowLevelCapabilitiesString s = .ok tokens ∧
        ParseLowLevelCapabilitiesString s = .ok (tokens.map ParseToken)) ∧
    ∀ t : Token, (ParseToken t).Children = t.Children.map ParseToken ∧
      ((ParseToken t).ElementType = VCPCapabilityElementType.Leaf ↔
        (ParseToken t).Children = []) ∧
      ((ParseToken t).ElementType = VCPCapabilityElementType.Tree ↔
        (ParseToken t).Children ≠ []) := by
  refine ⟨⟨run [] ⟨[], []⟩ [] s, tokenize_eq_run s, ?_⟩, ?_⟩
  · simp [ParseLowLevelCapabilitiesString, tokenize_eq_run, parseChildren_eq_map]
  · intro t
    refine ⟨ParseToken_Children t, ?_, ?_⟩
    · rw [ParseToken_ElementType, ParseToken_Children]
      by_cases h : t.Children = [] <;> simp [h]
    · rw [ParseToken_ElementType, ParseToken_Children]
      by_cases h : t.Children = [] <;> simp [h]

/-! ## The printing scenario -/

/-- C4, as stated, fails: the root parsed from `vcp(02 60(0F 11)) cmds(01)` is not the
`vcp` branch with exactly the two children `0x02` and `0x60(0x0F 0x11)`. -/
theorem scenario_root_not_two_children :
    ¬ ∃ rest, ParseLowLevelCapabilitiesString scenarioCapabilities =
      .ok (⟨VCPValue.text "vcp".toList,
          [codeLeaf 0x02,
            ⟨VCPValue.code 0x60, [codeLeaf 0x0F, codeLeaf 0x11],
              VCPCapabilityElementType.Tree, VCPCapabilityValueType.VCPCode⟩],
          VCPCapabilityElementType.Tree, VCPCapabilityValueType.Text⟩ :: rest) := by
  rintro ⟨rest, h⟩
  have hhead : (match ParseLowLevelCapabilitiesString scenarioCapabilities with
    | Except.ok (e :: _) => e.Children.length
    | _ => 0) = 2 := by rw [h]; rfl
  revert hhead
  decide

/-- C4, amended: the root parsed from `vcp(02 60(0F 11)) cmds(01)`, which
`GetLowLevelCapabilities` keeps for printing from the NUL-terminated buffer, is the `vcp` branch whose children are,
in order, the leaf `0x02`, the branch `0x60` with exactly the leaves `0x0F` and `0x11`,
and an empty-text leaf emitted for the closing parenthesis of the `0x60` group. -/
theorem scenario_root_three_children :
    (∃ rest, ParseLowLevelCapabilitiesString scenarioCapabilities =
      .ok (⟨VCPValue.text "vcp".toList,
          [codeLeaf 0x02,
            ⟨VCPValue.code 0x60, [codeLeaf 0x0F, codeLeaf 0x11],
              VCPCapabilityElementType.Tree, VCPCapabilityValueType.VCPCode⟩,
            ⟨VCPValue.text [], [], VCPCapabilityElementType.Leaf,
              VCPCapabilityValueType.Text⟩],
          VCPCapabilityElementType.Tree, VCPCapabilityValueType.Text⟩ :: rest)) ∧
    GetLowLevelCapabilities (some (scenarioCapabilities ++ [Char.ofNat 0])) =
      .ok ⟨true, ⟨VCPValue.text "vcp".toList,
          [codeLeaf 0x02,
            ⟨VCPValue.code 0x60, [codeLeaf 0x0F, codeLeaf 0x11],
              VCPCapabilityElementType.Tree, VCPCapabilityValueType.VCPCode⟩,
            ⟨VCPValue.text [], [], VCPCapabilityElementType.Leaf,
              VCPCapabilityValueType.Text⟩],
          VCPCapabilityElementType.Tree, VCPCapabilityValueType.Text⟩⟩ := by
  refine ⟨⟨_, rfl⟩, ?_⟩
  decide

/-! ## End of input does not flush the in-flight token -/

theorem run_word (w : List Char) (hw : ∀ c ∈ w, c ≠ ' ' ∧ c ≠ '(' ∧ c ≠ ')') :
    ∀ (stack : List (List Token × Token)) (token : Token) (tokens : List Token),
      run stack token tokens w = run stack ⟨[], []⟩ tokens [] := by
  induction w with
  | nil => intro stack token tokens; rfl
  | cons c w ih =>
    intro stack token tokens
    obtain ⟨h1, h2, h3⟩ := hw c (by simp)
    simp only [run, if_neg h1, if_neg h2, if_neg h3]
    exact ih (fun d hd => hw d (by simp [hd])) _ _ _

theorem run_append_word (w : List Char) (hw : ∀ c ∈ w, c ≠ ' ' ∧ c ≠ '(' ∧ c ≠ ')')
    (s : List Char) :
    ∀ (stack : List (List Token × Token)) (token : Token) (tokens : List Token),
      run stack token tokens (s ++ w) = run stack token tokens s := by
  induction s with
  | nil =>
    intro stack token tokens
    rw [List.nil_append, run_word w hw]
    rfl
  | cons c s ih =>
    intro stack token tokens
    simp only [List.cons_append, run]
    split_ifs
    · exact ih _ _ _
    · cases stack with
      | nil => rfl
      | cons frame below => exact ih _ _ _
    · exact ih _ _ _
    · exact ih _ _ _

/-- C5: characters other than `' '`, `'('` and `')'` at the end of the input are never
emitted: appending such characters leaves the token list unchanged, and a string made
only of them tokenizes to the empty list. -/
theorem trailing_word_dropped (s w : List Char)
    (hw : ∀ c ∈ w, c ≠ ' ' ∧ c ≠ '(' ∧ c ≠ ')') :
    TokenizeLowLevelCapabilitiesString (s ++ w) = TokenizeLowLevelCapabilitiesString s ∧
      TokenizeLowLevelCapabilitiesString w = .ok [] := by
  refine ⟨?_, ?_⟩
  · rw [tokenize_eq_run, tokenize_eq_run, run_append_word w hw]
  · rw [tokenize_eq_run, run_word w hw]
    rfl

/-- The trailing word `cmds` after `vcp(02) ` is not emitted. -/
theorem trailing_word_dropped_witness :
    TokenizeLowLevelCapabilitiesString ("vcp(02) ".toList ++ "cmds".toList) =
        TokenizeLowLevelCapabilitiesString "vcp(02) ".toList ∧
      TokenizeLowLevelCapabilitiesString "cmds".toList = .ok [] :=
  trailing_word_dropped "vcp(02) ".toList "cmds".toList (by decide)

theorem run_value (v : List Char) (hv : v.all isWordChar = true) :
    ∀ (stack : List (List Token × Token)) (pre : List Char) (children tokens : List Token)
      (rest : List Char),
      run stack ⟨pre, children⟩ tokens (v ++ rest) = run stack ⟨pre ++ v, children⟩ tokens rest := by
  induction v with
  | nil => intro stack pre children tokens rest; simp
  | cons c v ih =>
    intro stack pre children tokens rest
    simp only [List.all_cons, Bool.and_eq_true, isWordChar, Bool.and_eq_true,
      decide_eq_true_eq, bne_iff_ne, ne_eq] at hv
    obtain ⟨⟨⟨h1, h2⟩, h3⟩, hrest⟩ := hv
    simp only [List.cons_append, run, if_neg h2, if_neg h3, if_neg h1, List.append_eq]
    rw [ih hrest]
    simp

/-! ## The round trip -/

theorem renderTokens_concat (l : List Token) (t : Token) (hne : l ≠ []) :
    renderTokens (l ++ [t]) = renderTokens l ++ ' ' :: renderToken t := by
  induction l with
  | nil => exact absurd rfl hne
  | cons a l ih =>
    cases l with
    | nil => simp [renderTokens]
    | cons b l =>
      have h1 : renderTokens (a :: b :: l ++ [t]) =
          renderToken a ++ ' ' :: renderTokens (b :: l ++ [t]) := rfl
      have h2 : renderTokens (a :: b :: l) = renderToken a ++ ' ' :: renderTokens (b :: l) := rfl
      rw [h1, h2, ih (by simp)]
      simp

theorem renderTokens_leaf_push (tokens : List Token) (v : List Char) (c : Char) :
    renderTokens (tokens ++ [⟨v ++ [c], []⟩]) = renderTokens (tokens ++ [⟨v, []⟩]) ++ [c] := by
  cases tokens with
  | nil => simp [renderTokens, renderToken]
  | cons a l =>
    rw [renderTokens_concat _ _ (by simp), renderTokens_concat _ _ (by simp)]
    simp [renderToken]

theorem renderTokens_leaf_space (tokens : List Token) (v : List Char) :
    renderTokens ((tokens ++ [⟨v, []⟩]) ++ [⟨[], []⟩]) =
      renderTokens (tokens ++ [⟨v, []⟩]) ++ [' '] := by
  rw [renderTokens_concat _ _ (by simp)]
  simp [renderToken]

theorem renderTokens_group_close (tokens children : List Token) (v : List Char)
    (hne : children ≠ []) :
    renderTokens ((tokens ++ [⟨v, children⟩]) ++ [⟨[], []⟩]) =
      renderTokens (tokens ++ [⟨v, []⟩]) ++ '(' :: (renderTokens children ++ [')', ' ']) := by
  have hbranch : renderToken ⟨v, children⟩ = v ++ '(' :: (renderTokens children ++ [')']) := by
    cases children with
    | nil => exact absurd rfl hne
    | cons a l => simp [renderToken]
  rw [renderTokens_concat _ _ (by simp)]
  cases tokens with
  | nil =>
    have h0 : renderTokens ([] ++ [(⟨v, children⟩ : Token)]) = renderToken ⟨v, children⟩ := rfl
    rw [h0, hbranch]
    simp [renderTokens, renderToken]
  | cons a l =>
    rw [renderTokens_concat _ _ (by simp), renderTokens_concat _ _ (by simp), hbranch]
    simp [renderToken]

/-- The rendering of the machine state follows the input: a character read is appended
to it, and a closing parenthesis is followed by a space.  At the end of a matched input
the state is the result together with the in-flight value, which is not emitted. -/
theorem run_spaced (s : List Char) :
    ∀ (stack : List (List Token × Token)) (v : List Char) (tokens : List Token),
      matchedFrom stack.length s = true → (∀ c ∈ v, isWordChar c = true) →
      ∃ v2 : List Char, (∀ c ∈ v2, isWordChar c = true) ∧
        renderTokens (run stack ⟨v, []⟩ tokens s ++ [⟨v2, []⟩]) =
          renderStack stack ++ (renderTokens (tokens ++ [⟨v, []⟩]) ++ spaced s) := by
  induction s with
  | nil =>
    intro stack v tokens hm hv
    cases stack with
    | nil => exact ⟨v, hv, by simp [run, renderStack, spaced]⟩
    | cons frame below => simp [matchedFrom] at hm
  | cons c s ih =>
    intro stack v tokens hm hv
    by_cases hopen : c = '('
    · simp only [matchedFrom, if_pos hopen] at hm
      obtain ⟨v2, hv2, hr⟩ := ih ((tokens, ⟨v, []⟩) :: stack) [] [] hm (by simp)
      refine ⟨v2, hv2, ?_⟩
      simp only [run, if_pos hopen]
      rw [hr, hopen]
      simp [renderStack, spaced, renderTokens, renderToken]
    · by_cases hclose : c = ')'
      · cases stack with
        | nil =>
          rw [hclose] at hm
          simp [matchedFrom] at hm
        | cons frame below =>
          rw [hclose] at hm
          simp only [matchedFrom, List.length_cons] at hm
          have hm2 : matchedFrom below.length s = true := by simpa using hm
          obtain ⟨v2, hv2, hr⟩ :=
            ih below [] (frame.1 ++ [⟨frame.2.Value, tokens ++ [⟨v, []⟩]⟩]) hm2 (by simp)
          refine ⟨v2, hv2, ?_⟩
          simp only [run, if_neg hopen, if_pos hclose]
          rw [hr, renderTokens_group_close _ _ _ (by simp), hclose]
          simp [renderStack, spaced]
      · simp only [matchedFrom, if_neg hopen, if_neg hclose] at hm
        by_cases hspace : c = ' '
        · obtain ⟨v2, hv2, hr⟩ := ih stack [] (tokens ++ [⟨v, []⟩]) hm (by simp)
          refine ⟨v2, hv2, ?_⟩
          simp only [run, if_neg hopen, if_neg hclose, if_pos hspace]
          rw [hr, renderTokens_leaf_space, hspace]
          simp [spaced]
        · have hv3 : ∀ d ∈ v ++ [c], isWordChar d = true := by
            intro d hd
            simp only [List.mem_append, List.mem_singleton] at hd
            rcases hd with hd | rfl
            · exact hv d hd
            · simp [isWordChar, hopen, hclose, hspace]
          obtain ⟨v2, hv2, hr⟩ := ih stack (v ++ [c]) tokens hm hv3
          refine ⟨v2, hv2, ?_⟩
          simp only [run, if_neg hopen, if_neg hclose, if_neg hspace]
          rw [hr, renderTokens_leaf_push]
          simp [spaced, hclose]

theorem spaced_length (s : List Char) : (spaced s).length = s.length + s.count ')' := by
  induction s with
  | nil => rfl
  | cons c s ih =>
    by_cases hclose : c = ')'
    · subst hclose
      simp [spaced, ih]
      omega
    · have : (c == ')') = false := by simpa using hclose
      simp [spaced, hclose, ih, List.count_cons, this]
      omega

theorem spaced_words (s : List Char) :
    (spaced s).countP isWordChar = s.countP isWordChar := by
  induction s with
  | nil => rfl
  | cons c s ih =>
    by_cases hclose : c = ')'
    · subst hclose
      simp [spaced, ih, List.countP_cons, isWordChar]
    · simp [spaced, hclose, ih, List.countP_cons]

theorem spaced_ne_nil (s : List Char) (h : s ≠ []) : spaced s ≠ [] := by
  cases s with
  | nil => exact absurd rfl h
  | cons c s =>
    by_cases hclose : c = ')' <;> simp [spaced, hclose]

theorem spaced_getLast (s : List Char) (h : (spaced s).getLast? = some ' ') :
    s.getLast? = some ')' ∨ s.getLast? = some ' ' := by
  induction s with
  | nil => simp [spaced] at h
  | cons c s ih =>
    cases s with
    | nil =>
      by_cases hclose : c = ')'
      · left; simp [hclose]
      · right
        simp [spaced, hclose] at h
        simp [h]
    | cons d s =>
      have hne : spaced (d :: s) ≠ [] := spaced_ne_nil _ (by simp)
      have hlast : (spaced (c :: d :: s)).getLast? = (spaced (d :: s)).getLast? := by
        by_cases hclose : c = ')'
        · have : spaced (c :: d :: s) = [')', ' '] ++ spaced (d :: s) := by
            simp [spaced, hclose]
          rw [this, List.getLast?_append_of_ne_nil _ hne]
        · have : spaced (c :: d :: s) = [c] ++ spaced (d :: s) := by
            rw [spaced, if_neg hclose]
            rfl
          rw [this, List.getLast?_append_of_ne_nil _ hne]
      rw [hlast] at h
      have := ih h
      simpa [List.getLast?_cons_cons] using this

theorem spaced_single_close (x : List Char) (hx : ∀ c ∈ x, c ≠ ')') :
    spaced (x ++ [')']) = x ++ [')', ' '] := by
  induction x with
  | nil => simp [spaced]
  | cons c x ih =>
    have hc : c ≠ ')' := hx c (by simp)
    simp only [List.cons_append, spaced, if_neg hc, List.append_eq]
    rw [ih (fun d hd => hx d (by simp [hd]))]

/-- C3, as stated, fails: `a b` and `a(b) c(d)` are well-formed, but rendering their
tokens gives `a` (the trailing token is never emitted) and `a(b)  c(d)` (an empty token
follows the first group). -/
theorem roundtrip_counterexample :
    WellFormed "a b".toList ∧
      (TokenizeLowLevelCapabilitiesString "a b".toList).map renderTokens = .ok "a".toList ∧
      (TokenizeLowLevelCapabilitiesString "a b".toList).map renderTokens ≠ .ok "a b".toList ∧
      WellFormed "a(b) c(d)".toList ∧
      (TokenizeLowLevelCapabilitiesString "a(b) c(d)".toList).map renderTokens ≠
        .ok "a(b) c(d)".toList := by
  refine ⟨by decide, by decide, by decide, by decide, by decide⟩

/-- C3, amended: for every well-formed capabilities string the tokenizer returns, and
rendering its tokens depth-first gives back exactly the string if and only if the
string is empty or has exactly one closing parenthesis, which is its last character. -/
theorem roundtrip_iff_single_group (s : List Char) (hwf : WellFormed s) :
    ∃ tokens : List Token, TokenizeLowLevelCapabilitiesString s = .ok tokens ∧
      (renderTokens tokens = s ↔
        (s = [] ∨ (s.getLast? = some ')' ∧ s.count ')' = 1))) := by
  refine ⟨run [] ⟨[], []⟩ [] s, tokenize_eq_run s, ?_⟩
  have hwf2 := hwf
  simp only [WellFormed, wellFormedString, Bool.and_eq_true, bne_iff_ne, ne_eq] at hwf2
  obtain ⟨⟨⟨hm, -⟩, -⟩, hlast⟩ := hwf2
  obtain ⟨v2, hv2, hr⟩ := run_spaced s [] [] [] hm (by simp)
  simp only [renderStack, List.nil_append] at hr
  have hr2 : renderTokens (run [] ⟨[], []⟩ [] s ++ [⟨v2, []⟩]) = spaced s := by
    rw [hr]; simp [renderTokens, renderToken]
  have hwords : v2.countP isWordChar = v2.length := by
    rw [List.countP_eq_length]
    exact hv2
  constructor
  · intro hround
    by_cases hs : s = []
    · exact Or.inl hs
    · right
      have hout : run [] ⟨[], []⟩ [] s ≠ [] := by
        intro h
        rw [h] at hround
        exact hs hround.symm
      rw [renderTokens_concat _ _ hout, hround] at hr2
      have hleaf : renderToken ⟨v2, []⟩ = v2 := by simp [renderToken]
      rw [hleaf] at hr2
      have hcount := congrArg (List.countP isWordChar) hr2
      rw [spaced_words, List.countP_append, List.countP_cons, hwords] at hcount
      have hv2nil : v2 = [] := by
        simpa [isWordChar] using hcount
      subst hv2nil
      have hlen := congrArg List.length hr2
      rw [spaced_length] at hlen
      simp at hlen
      have hsp : (spaced s).getLast? = some ' ' := by
        rw [← hr2]; simp
      rcases spaced_getLast s hsp with h | h
      · exact ⟨h, by omega⟩
      · exact absurd h hlast
  · rintro (rfl | ⟨hend, hcount⟩)
    · rfl
    · obtain ⟨x, rfl⟩ : ∃ x, s = x ++ [')'] := by
        have hne : s ≠ [] := by rintro rfl; simp at hend
        refine ⟨s.dropLast, ?_⟩
        have h1 := List.dropLast_append_getLast hne
        have h2 : s.getLast hne = ')' := by
          have := List.getLast?_eq_getLast s hne
          rw [hend] at this
          exact (Option.some.inj this).symm
        rw [h2] at h1
        exact h1.symm
      have hx : ∀ c ∈ x, c ≠ ')' := by
        intro c hc hcc
        subst hcc
        have : 0 < x.count ')' := List.count_pos_iff.2 hc
        simp [List.count_append] at hcount
        omega
      rw [spaced_single_close x hx] at hr2
      by_cases hout : run [] ⟨[], []⟩ [] (x ++ [')']) = []
      · rw [hout] at hr2
        have hmem : ')' ∈ v2 := by
          have : v2 = x ++ [')', ' '] := by simpa [renderTokens, renderToken] using hr2
          rw [this]; simp
        have := hv2 _ hmem
        simp [isWordChar] at this
      · rw [renderTokens_concat _ _ hout] at hr2
        have hleaf : renderToken ⟨v2, []⟩ = v2 := by simp [renderToken]
        rw [hleaf] at hr2
        rcases List.eq_nil_or_concat v2 with hnil | ⟨w, c, hwc⟩
        · subst hnil
          have h3 : renderTokens (run [] ⟨[], []⟩ [] (x ++ [')'])) ++ [' '] =
              (x ++ [')']) ++ [' '] := by simpa using hr2
          exact List.append_cancel_right h3
        · subst hwc
          have h3 : (renderTokens (run [] ⟨[], []⟩ [] (x ++ [')'])) ++ ' ' :: w) ++ [c] =
              (x ++ [')']) ++ [' '] := by simpa using hr2
          have h4 := (List.append_inj' h3 rfl).2
          have hc : c = ' ' := by simpa using h4
          have := hv2 c (by simp)
          simp [isWordChar, hc] at this

/-- The well-formed string `a()`, with an empty group, has one closing parenthesis, at
its end. -/
theorem roundtrip_iff_single_group_witness :
    WellFormed "a()".toList ∧
      (∃ tokens : List Token, TokenizeLowLevelCapabilitiesString "a()".toList = .ok tokens ∧
        (renderTokens tokens = "a()".toList ↔
          ("a()".toList = [] ∨
            ("a()".toList.getLast? = some ')' ∧ "a()".toList.count ')' = 1)))) :=
  ⟨by decide, roundtrip_iff_single_group "a()".toList (by decide)⟩

/-! ## VCP operation layer -/

theorem writesOf_append (a b : List Call) : writesOf (a ++ b) = writesOf a ++ writesOf b := by
  simp [writesOf]

theorem verifyLoop_writes {σ : Type} (T : Transport σ) (vcpCode vcpValue : Nat) (polls : Nat) :
    ∀ (w : World σ) (result : VCPFeatureResult),
      writesOf (verifyLoop T vcpCode vcpValue polls w result).1.calls = writesOf w.calls := by
  induction polls with
  | zero => intro w result; rfl
  | succ polls ih =>
    intro w result
    simp only [verifyLoop]
    split_ifs
    · simp [GetVCPFeature, writesOf_append, writesOf]
    · rw [ih]
      simp [GetVCPFeature, writesOf_append, writesOf]

/-- C6: when the read of feature `0x60` succeeds with current value `c`, `Toggle` issues
exactly one write: to feature `0x60`, with value `0x0F` when `c = 0x11` and `0x11` for
every other `c`; this holds with and without verification. -/
theorem toggle_single_write {σ : Type} (T : Transport σ) (polls : Nat)
    (uninit : VCPFeatureResult) (w : World σ) (verify : Bool)
    (hread : (T.GetVCPFeatureAndVCPFeatureReply w.state 0x60).2.Success = true) :
    writesOf (Toggle T polls uninit w verify).1.calls =
      writesOf w.calls ++
        [Call.write 0x60
          (if (T.GetVCPFeatureAndVCPFeatureReply w.state 0x60).2.CurrentValue = 0x11 then 0x0F
            else 0x11)] := by
  have hsucc : (GetVCPFeature T w 0x60).2.Success = true := hread
  have hcur : (GetVCPFeature T w 0x60).2.CurrentValue =
      (T.GetVCPFeatureAndVCPFeatureReply w.state 0x60).2.CurrentValue := rfl
  have hcalls : writesOf (GetVCPFeature T w 0x60).1.calls = writesOf w.calls := by
    simp [GetVCPFeature, writesOf_append, writesOf]
  simp only [Toggle, hsucc, if_true]
  by_cases hc : (T.GetVCPFeatureAndVCPFeatureReply w.state 0x60).2.CurrentValue = 0x11
  · rw [hcur]
    simp only [hc, if_true]
    split_ifs <;>
      simp [Verify, verifyLoop_writes, SetVCPFeature, writesOf_append, hcalls] <;>
      simp [writesOf]
  · rw [hcur]
    simp only [hc, if_false]
    split_ifs <;>
      simp [Verify, verifyLoop_writes, SetVCPFeature, writesOf_append, hcalls] <;>
      simp [writesOf]

/-- The single write of `Toggle` from the inputs `0x11` and `0x12`. -/
theorem toggle_single_write_witness :
    writesOf (Toggle echoTransport 3 ⟨false, 0, 0, 0⟩ ⟨0x11, []⟩ true).1.calls =
        [Call.write 0x60 0x0F] ∧
      writesOf (Toggle echoTransport 3 ⟨false, 0, 0, 0⟩ ⟨0x12, []⟩ false).1.calls =
        [Call.write 0x60 0x11] :=
  ⟨toggle_single_write echoTransport 3 ⟨false, 0, 0, 0⟩ ⟨0x11, []⟩ true rfl,
    toggle_single_write echoTransport 3 ⟨false, 0, 0, 0⟩ ⟨0x12, []⟩ false rfl⟩

theorem verifyLoop_result {σ : Type} (T : Transport σ) (vcpCode vcpValue : Nat) (polls : Nat) :
    ∀ (w : World σ) (result : VCPFeatureResult),
      ((∃ r ∈ readReplies T vcpCode polls w, r.Success = true ∧ r.CurrentValue = vcpValue) ∧
        (verifyLoop T vcpCode vcpValue polls w result).2.Success = true ∧
        (verifyLoop T vcpCode vcpValue polls w result).2.CurrentValue = vcpValue) ∨
      ((∀ r ∈ readReplies T vcpCode polls w, ¬ (r.Success = true ∧ r.CurrentValue = vcpValue)) ∧
        (verifyLoop T vcpCode vcpValue polls w result).2 =
          (readReplies T vcpCode polls w).getLast?.getD result) := by
  induction polls with
  | zero =>
    intro w result
    right
    simp [readReplies, verifyLoop]
  | succ polls ih =>
    intro w result
    by_cases hm : (GetVCPFeature T w vcpCode).2.Success = true ∧
        (GetVCPFeature T w vcpCode).2.CurrentValue = vcpValue
    · left
      refine ⟨⟨_, by simp [readReplies], hm⟩, ?_⟩
      simp only [verifyLoop, if_pos hm]
      exact hm
    · rcases ih (GetVCPFeature T w vcpCode).1 (GetVCPFeature T w vcpCode).2 with
        ⟨⟨r, hr, hrm⟩, h2⟩ | ⟨hnone, hlast⟩
      · left
        refine ⟨⟨r, by simp [readReplies, hr], hrm⟩, ?_⟩
        simp only [verifyLoop, if_neg hm]
        exact h2
      · right
        refine ⟨?_, ?_⟩
        · intro r hr
          simp only [readReplies, List.mem_cons] at hr
          rcases hr with rfl | hr
          · exact hm
          · exact hnone r hr
        · simp only [verifyLoop, if_neg hm, hlast, readReplies]
          cases hrep : readReplies T vcpCode polls (GetVCPFeature T w vcpCode).1 with
          | nil => simp
          | cons a l =>
            rw [List.getLast?_cons_cons, List.getLast?_eq_getLast _ (List.cons_ne_nil a l)]
            rfl

/-- C7, as stated, fails: against a transport whose single read before the deadline
succeeds with `0x4b`, `Verify` for the expected value `0x32` returns `Success = true`
although no reply carried the expected value. -/
theorem verify_success_without_match :
    (Verify stuckTransport 1 ⟨false, 0, 0, 0⟩ ⟨(), []⟩ 0x10 0x32).2.Success = true ∧
      ∀ r ∈ readReplies stuckTransport 0x10 1 ⟨(), []⟩,
        ¬ (r.Success = true ∧ r.CurrentValue = 0x32) := by
  decide

/-- C7, amended: over the replies to the reads before the deadline, `Verify` returns a
record with `Success = true` and `CurrentValue = expected` if and only if some reply
was successful with `CurrentValue = expected`; if no reply was, it returns the last
reply (or, without any read, a record with `Success = false`), so `Success` is false
exactly when there was no read or the last read failed. -/
theorem verify_confirms_iff_match {σ : Type} (T : Transport σ) (polls : Nat)
    (uninit : VCPFeatureResult) (w : World σ) (vcpCode expected : Nat) :
    (((Verify T polls uninit w vcpCode expected).2.Success = true ∧
        (Verify T polls uninit w vcpCode expected).2.CurrentValue = expected) ↔
      ∃ r ∈ readReplies T vcpCode polls w, r.Success = true ∧ r.CurrentValue = expected) ∧
    ((∀ r ∈ readReplies T vcpCode polls w, ¬ (r.Success = true ∧ r.CurrentValue = expected)) →
      (Verify T polls uninit w vcpCode expected).2 =
        (readReplies T vcpCode polls w).getLast?.getD { uninit with Success := false }) := by
  rcases verifyLoop_result T vcpCode expected polls w { uninit with Success := false } with
    ⟨hex, h2⟩ | ⟨hnone, hlast⟩
  · refine ⟨⟨fun _ => hex, fun _ => h2⟩, ?_⟩
    intro hno
    obtain ⟨r, hr, hrm⟩ := hex
    exact absurd hrm (hno r hr)
  · refine ⟨⟨?_, ?_⟩, fun _ => hlast⟩
    · intro hs
      exfalso
      have hl : (Verify T polls uninit w vcpCode expected).2 =
          (readReplies T vcpCode polls w).getLast?.getD { uninit with Success := false } := hlast
      rw [hl] at hs
      cases hrep : (readReplies T vcpCode polls w).getLast? with
      | none => rw [hrep] at hs; simp at hs
      | some r =>
        rw [hrep] at hs
        exact hnone r (List.mem_of_getLast?_eq_some hrep) hs
    · rintro ⟨r, hr, hrm⟩
      exact absurd hrm (hnone r hr)

/-- Without a matching reply `Verify` returns the last of two replies. -/
theorem verify_confirms_iff_match_witness :
    (Verify stuckTransport 2 ⟨false, 0, 0, 0⟩ ⟨(), []⟩ 0x10 0x32).2 =
      (readReplies stuckTransport 0x10 2 ⟨(), []⟩).getLast?.getD ⟨false, 0, 0, 0⟩ :=
  (verify_confirms_iff_match stuckTransport 2 ⟨false, 0, 0, 0⟩ ⟨(), []⟩ 0x10 0x32).2 (by decide)

/-! ## Command driver -/

theorem Get_fst {α : Type} (extract : α → Nat → List Char → Extracted α) (out : α)
    (s : List Char) : (Get extract out s).1 = true := by
  unfold Get GetHex
  split_ifs <;> rfl

/-- C8 fails on the code: `Get` returns the constant `ss.failbit` converted to `bool`,
which is `true` whatever the stream's state, so a parameter that is not a number is
accepted: `-g zz`, `-m zz` and `-s zz zz` all give a valid record and no usage exit. -/
theorem non_number_parameter_accepted :
    ParseArguments ["-g".toList, "zz".toList] = { Valid := true, GetVCPFeature := true } ∧
      mainUsageExit ["-g".toList, "zz".toList] = none ∧
      (ParseArguments ["-m".toList, "zz".toList]).Valid = true ∧
      (ParseArguments ["-s".toList, "zz".toList, "zz".toList]).Valid = true := by
  decide

/-- C9 fails on the code: the post validation rejects `--get` together with `--set`
only, so `--toggle --get 0x10` gives a valid record with both `Toggle` and
`GetVCPFeature` set, and `--set 0x10 1 --toggle` one with `Toggle` and `SetVCPFeature`. -/
theorem toggle_with_get_accepted :
    ParseArguments ["--toggle".toList, "--get".toList, "0x10".toList] =
        { Valid := true, GetVCPFeature := true, GetVCPFeatureAddress := 0x10, Toggle := true } ∧
      ParseArguments ["--set".toList, "0x10".toList, "1".toList, "--toggle".toList] =
        { Valid := true, SetVCPFeature := true, SetVCPFeatureAddress := 0x10,
          SetVCPFeatureValue := 1, Toggle := true } := by
  decide

theorem decimalDigit_facts (c : Char) (h : c ∈ decimalDigits) :
    c ∈ hexDigits ∧ digitOf 10 c = some (hexDigitValue c) := by
  simp only [decimalDigits, String.toList, List.mem_cons, List.mem_singleton] at h
  rcases h with h | h | h | h | h | h | h | h | h | h | h <;>
    first | (subst h; decide) | (simp at h)

theorem takeDigits_eq_map (base : Nat) (ds : List Char)
    (h : ∀ c ∈ ds, digitOf base c = some (hexDigitValue c)) :
    takeDigits base ds = ds.map hexDigitValue := by
  induction ds with
  | nil => rfl
  | cons c ds ih =>
    simp only [takeDigits, h c (by simp), List.map_cons]
    rw [ih (fun d hd => h d (by simp [hd]))]

theorem magnitude_map (base : Nat) (ds : List Char) :
    magnitude base (ds.map hexDigitValue) = numeralValue base ds := by
  simp [magnitude, numeralValue, List.foldl_map]

theorem getField_digits (base : Nat) (ds : List Char) (hne : ds ≠ [])
    (hhex : ∀ c ∈ ds, c ∈ hexDigits)
    (hdig : ∀ c ∈ ds, digitOf base c = some (hexDigitValue c)) :
    getField base ds = ⟨false, ds.map hexDigitValue⟩ := by
  cases ds with
  | nil => exact absurd rfl hne
  | cons a ds =>
    obtain ⟨ha1, ha2, ha3, -, -, -, -⟩ := hexDigit_facts a (hhex a (by simp))
    simp only [getField, List.dropWhile, ha1]
    split
    · rename_i heq; simp at heq; exact absurd heq.1 ha2
    · rename_i heq; simp at heq; exact absurd heq.1 ha3
    · simp only []
      split
      · rename_i x r heq
        simp only [List.cons.injEq] at heq
        obtain ⟨h0, hx⟩ := heq
        have hxmem : x ∈ hexDigits := hhex x (by rw [hx]; simp)
        obtain ⟨-, -, -, hx4, hx5, -, -⟩ := hexDigit_facts x hxmem
        have : ¬ (base = 16 ∧ (x = 'x' ∨ x = 'X')) := by simp [hx4, hx5]
        rw [if_neg this, takeDigits_eq_map base _ hdig]
      · rw [takeDigits_eq_map base _ hdig]

theorem dropWhile_isspace_digits (ds : List Char) (hne : ds ≠ [])
    (hhex : ∀ c ∈ ds, c ∈ hexDigits) : ds.dropWhile isspace ≠ [] := by
  cases ds with
  | nil => exact absurd rfl hne
  | cons a ds =>
    have ha := (hexDigit_facts a (hhex a (by simp))).1
    simp [List.dropWhile, ha]

theorem extractUInt32_digits (old : Nat) (base : Nat) (ds : List Char) (hne : ds ≠ [])
    (hhex : ∀ c ∈ ds, c ∈ hexDigits)
    (hdig : ∀ c ∈ ds, digitOf base c = some (hexDigitValue c))
    (hlt : numeralValue base ds < 2 ^ 32) :
    (extractUInt32 old base ds).value = numeralValue base ds := by
  simp only [extractUInt32, getField_digits base ds hne hhex hdig, magnitude_map,
    if_neg (dropWhile_isspace_digits ds hne hhex)]
  have h1 : ds.map hexDigitValue ≠ [] := by simpa using hne
  have h2 : ¬ (4294967295 < numeralValue base ds) := by
    have : (2 : Nat) ^ 32 = 4294967296 := by norm_num
    omega
  simp [h1, h2]

theorem Get_writes (old : Nat) (s : List Char) (n : Nat) (hs : Writes s n) (hn : n < 2 ^ 32) :
    Get extractUInt32 old s = (true, n) := by
  rcases hs with ⟨hne, hdec, hval⟩ | ⟨hs, hne, hhex, hform, hval⟩
  · have hnohex : ¬ (s.length > 2 ∧ s.getD 0 ' ' = '0' ∧
        (s.getD 1 ' ' = 'x' ∨ s.getD 1 ' ' = 'X')) := by
      rintro ⟨hl, -, hx⟩
      match s, hl with
      | a :: b :: c :: r, _ =>
        simp only [List.getD_cons_zero, List.getD_cons_succ] at hx
        have hb := (decimalDigit_facts b (hdec b (by simp))).1
        obtain ⟨-, -, -, hb4, hb5, -, -⟩ := hexDigit_facts b hb
        rcases hx with hx | hx
        · exact hb4 hx
        · exact hb5 hx
    unfold Get
    rw [if_neg hnohex, extractUInt32_digits old 10 s hne
      (fun c hc => (decimalDigit_facts c (hdec c hc)).1)
      (fun c hc => (decimalDigit_facts c (hdec c hc)).2) (by rw [hval]; exact hn), hval]
    rfl
  · have hyeshex : s.length > 2 ∧ s.getD 0 ' ' = '0' ∧
        (s.getD 1 ' ' = 'x' ∨ s.getD 1 ' ' = 'X') := by
      cases hs with
      | nil => exact absurd rfl hne
      | cons a r => rcases hform with rfl | rfl <;> simp
    have hdrop : s.drop 2 = hs := by rcases hform with rfl | rfl <;> rfl
    unfold Get GetHex
    rw [if_pos hyeshex, hdrop, extractUInt32_digits old 16 hs hne hhex
      (fun c hc => (hexDigit_facts c (hhex c hc)).2.2.2.2.2.1) (by rw [hval]; exact hn), hval]
    rfl

/-- C10: address parameters are reduced to their low 8 bits: for numbers `n`, `m` below
`2 ^ 32` written as decimal numerals or as `0x` / `0X` followed by hexadecimal digits,
`--get n` stores `n mod 256` as the address, `--set n m` stores `n mod 256` as the
address and `m` unchanged as the value; `--get 0x160` and `--get 0x60` give equal
records. -/
theorem address_low_eight_bits (s v : List Char) (n m : Nat) (hs : Writes s n)
    (hv : Writes v m) (hn : n < 2 ^ 32) (hm : m < 2 ^ 32) :
    ParseArguments ["--get".toList, s] =
        { Valid := true, GetVCPFeature := true, GetVCPFeatureAddress := n % 256 } ∧
      ParseArguments ["--set".toList, s, v] =
        { Valid := true, SetVCPFeature := true, SetVCPFeatureAddress := n % 256,
          SetVCPFeatureValue := m } ∧
      ParseArguments ["--get".toList, "0x160".toList] =
        ParseArguments ["--get".toList, "0x60".toList] := by
  have hget : ∀ (rest : List (List Char)) (a : Arguments),
      parseLoop ("--get".toList :: s :: rest) a =
        parseLoop rest { a with GetVCPFeature := true, GetVCPFeatureAddress := n % 256 } := by
    intro rest a
    have hstep : parseLoop ("--get".toList :: s :: rest) a =
        if !(Get extractUInt32 a.GetVCPFeatureAddress s).1 then
          { a with GetVCPFeature := true,
                   GetVCPFeatureAddress := (Get extractUInt32 a.GetVCPFeatureAddress s).2,
                   Valid := false }
        else parseLoop rest
          { a with GetVCPFeature := true,
                   GetVCPFeatureAddress :=
                     (Get extractUInt32 a.GetVCPFeatureAddress s).2 % 256 } :=
      rfl
    rw [hstep, Get_writes a.GetVCPFeatureAddress s n hs hn]
    rfl
  have hset : ∀ (rest : List (List Char)) (a : Arguments),
      parseLoop ("--set".toList :: s :: v :: rest) a =
        parseLoop rest { a with SetVCPFeature := true, SetVCPFeatureAddress := n % 256,
                                SetVCPFeatureValue := m } := by
    intro rest a
    have hstep : parseLoop ("--set".toList :: s :: v :: rest) a =
        if !(Get extractUInt32 a.SetVCPFeatureAddress s).1 then
          { a with SetVCPFeature := true,
                   SetVCPFeatureAddress := (Get extractUInt32 a.SetVCPFeatureAddress s).2,
                   Valid := false }
        else if !(Get extractUInt32 a.SetVCPFeatureValue v).1 then
          { a with SetVCPFeature := true,
                   SetVCPFeatureAddress := (Get extractUInt32 a.SetVCPFeatureAddress s).2 % 256,
                   SetVCPFeatureValue := (Get extractUInt32 a.SetVCPFeatureValue v).2,
                   Valid := false }
        else parseLoop rest
          { a with SetVCPFeature := true,
                   SetVCPFeatureAddress := (Get extractUInt32 a.SetVCPFeatureAddress s).2 % 256,
                   SetVCPFeatureValue := (Get extractUInt32 a.SetVCPFeatureValue v).2 } :=
      rfl
    rw [hstep, Get_writes a.SetVCPFeatureAddress s n hs hn,
      Get_writes a.SetVCPFeatureValue v m hv hm]
    rfl
  refine ⟨?_, ?_, by decide⟩
  · unfold ParseArguments
    rw [hget]
    rfl
  · unfold ParseArguments
    rw [hset]
    rfl

/-- The address `352` is stored as `96`, the value `0XfFfFfFfF` in full. -/
theorem address_low_eight_bits_witness :
    ParseArguments ["--get".toList, "352".toList] =
        { Valid := true, GetVCPFeature := true, GetVCPFeatureAddress := 352 % 256 } ∧
      ParseArguments ["--set".toList, "352".toList, "0XfFfFfFfF".toList] =
        { Valid := true, SetVCPFeature := true, SetVCPFeatureAddress := 352 % 256,
          SetVCPFeatureValue := 4294967295 } ∧
      ParseArguments ["--get".toList, "0x160".toList] =
        ParseArguments ["--get".toList, "0x60".toList] :=
  address_low_eight_bits "352".toList "0XfFfFfFfF".toList 352 4294967295
    (Or.inl ⟨by decide, by decide, by decide⟩)
    (Or.inr ⟨"fFfFfFfF".toList, by decide, by decide, Or.inr rfl, by decide⟩)
    (by norm_num) (by norm_num)


/-! ## Monitor index -/

/-- C11 fails on the code: `MonitorIndex` is a `bool`, so `--monitor 2` stores `true`
and `main` passes index 1 to `GetMonitor`; only the indices 0 and 1, and the default 0,
arrive unchanged. -/
theorem monitor_index_two_becomes_one :
    (ParseArguments ["--monitor".toList, "2".toList]).Valid = true ∧
      mainMonitorIndex ["--monitor".toList, "2".toList] = some 1 ∧
      mainMonitorIndex ["--monitor".toList, "7".toList] = some 1 ∧
      mainMonitorIndex ["--monitor".toList, "1".toList] = some 1 ∧
      mainMonitorIndex ["--monitor".toList, "0".toList] = some 0 ∧
      mainMonitorIndex [] = some 0 := by
  decide

/-! ## The parser on a bounded call stack -/

mutual
theorem ParseTokenWithin_eq : ∀ (t : Token) (frames : Nat),
    ParseTokenWithin frames t =
      if levelsBelow t ≤ frames then .ok (ParseToken t) else .error .stackOverflow
  | ⟨value, []⟩, frames => by simp [ParseTokenWithin, ParseToken, levelsBelow]
  | ⟨value, c :: cs⟩, frames => by
    have h1 := ParseTokenWithin_eq c
    have h2 := parseChildrenWithin_eq cs
    cases frames with
    | zero => simp [ParseTokenWithin, levelsBelow]
    | succ below =>
      simp only [ParseTokenWithin, h1 below, h2 below, levelsBelow, levelsBelowAll, ParseToken]
      by_cases hc : levelsBelow c ≤ below
      · by_cases hcs : levelsBelowAll cs ≤ below
        · have hle : max (levelsBelow c) (levelsBelowAll cs) + 1 ≤ below + 1 := by omega
          simp only [if_pos hc, if_pos hcs, if_pos hle]
        · have hnle : ¬ max (levelsBelow c) (levelsBelowAll cs) + 1 ≤ below + 1 := by omega
          simp only [if_pos hc, if_neg hcs, if_neg hnle]
      · have hnle : ¬ max (levelsBelow c) (levelsBelowAll cs) + 1 ≤ below + 1 := by omega
        simp only [if_neg hc, if_neg hnle]
theorem parseChildrenWithin_eq : ∀ (ts : List Token) (frames : Nat),
    parseChildrenWithin frames ts =
      if levelsBelowAll ts ≤ frames then .ok (parseChildren ts) else .error .stackOverflow
  | [], frames => by simp [parseChildrenWithin, parseChildren, levelsBelowAll]
  | t :: ts, frames => by
    have h1 := ParseTokenWithin_eq t
    have h2 := parseChildrenWithin_eq ts
    simp only [parseChildrenWithin, h1 frames, h2 frames, levelsBelowAll, parseChildren]
    by_cases ht : levelsBelow t ≤ frames
    · by_cases hts : levelsBelowAll ts ≤ frames
      · have hle : max (levelsBelow t) (levelsBelowAll ts) ≤ frames := by omega
        simp only [if_pos ht, if_pos hts, if_pos hle]
      · have hnle : ¬ max (levelsBelow t) (levelsBelowAll ts) ≤ frames := by omega
        simp only [if_pos ht, if_neg hts, if_neg hnle]
    · have hnle : ¬ max (levelsBelow t) (levelsBelowAll ts) ≤ frames := by omega
      simp only [if_neg ht, if_neg hnle]
end

theorem run_spaces (k : Nat) :
    ∀ (tokens : List Token),
      run [] ⟨[], []⟩ tokens (List.replicate k ' ') =
        tokens ++ List.replicate k ⟨[], []⟩ := by
  induction k with
  | zero => intro tokens; simp [run]
  | succ k ih =>
    intro tokens
    have h1 : (' ' : Char) ≠ '(' := by decide
    have h2 : (' ' : Char) ≠ ')' := by decide
    simp only [List.replicate_succ, run, if_neg h1, if_neg h2, if_true]
    rw [ih]
    simp

/-- C13, as stated, fails: the string of one space parses to one empty-text leaf, not
to the empty forest. -/
theorem one_space_not_empty_forest :
    ParseLowLevelCapabilitiesString [' '] = .ok [emptyTextLeaf] ∧
      ParseLowLevelCapabilitiesString [' '] ≠ .ok [] := by
  decide

/-- C13, amended: the empty string parses to the empty forest, and a string of `k`
spaces parses to `k` leaves with empty text, one for every space. -/
theorem spaces_parse_to_empty_leaves (k : Nat) :
    ParseLowLevelCapabilitiesString [] = .ok [] ∧
      ParseLowLevelCapabilitiesString (List.replicate k ' ') =
        .ok (List.replicate k emptyTextLeaf) := by
  refine ⟨by decide, ?_⟩
  simp only [ParseLowLevelCapabilitiesString, tokenize_eq_run, run_spaces, List.nil_append,
    parseChildren_eq_map, List.map_replicate]
  rfl

/-! ## Usage errors -/

theorem reachesUsageError_one (arg : List Char) :
    reachesUsageError [arg] =
      match classify arg with
      | Flag.unsupported => true
      | Flag.monitor => true
      | Flag.get => true
      | Flag.set => true
      | Flag.info => false
      | Flag.capabilities => false
      | Flag.verify => false
      | Flag.toggle => false := by
  cases hc : classify arg <;> simp [reachesUsageError, hc]

theorem reachesUsageError_two (arg p : List Char) (rest : List (List Char)) :
    reachesUsageError (arg :: p :: rest) =
      match classify arg with
      | Flag.unsupported => true
      | Flag.monitor => reachesUsageError rest
      | Flag.get => reachesUsageError rest
      | Flag.set =>
        match rest with
        | [] => true
        | _ :: rest => reachesUsageError rest
      | Flag.info => reachesUsageError (p :: rest)
      | Flag.capabilities => reachesUsageError (p :: rest)
      | Flag.verify => reachesUsageError (p :: rest)
      | Flag.toggle => reachesUsageError (p :: rest) := by
  cases rest with
  | nil => cases hc : classify arg <;> simp [reachesUsageError, hc]
  | cons q rest => cases hc : classify arg <;> simp [reachesUsageError, hc]

theorem parseLoop_reaches (n : Nat) :
    ∀ (args : List (List Char)), args.length ≤ n → ∀ (a : Arguments),
      reachesUsageError args = true → (parseLoop args a).Valid = false := by
  induction n with
  | zero =>
    intro args hlen a h
    cases args with
    | nil => simp [reachesUsageError] at h
    | cons arg rest => simp at hlen
  | succ n ih =>
    intro args hlen a h
    cases args with
    | nil => simp [reachesUsageError] at h
    | cons arg rest =>
      cases rest with
      | nil =>
        rw [reachesUsageError_one] at h
        cases hc : classify arg <;> simp [parseLoop, hc] at h ⊢
      | cons p rest =>
        simp only [List.length_cons] at hlen
        rw [reachesUsageError_two] at h
        cases hc : classify arg <;>
          simp only [parseLoop, hc, Get_fst, Bool.not_true,
            Bool.false_eq_true, if_false] at h ⊢
        · exact ih rest (by omega) _ h
        · exact ih (p :: rest) (by simp only [List.length_cons]; omega) _ h
        · exact ih (p :: rest) (by simp only [List.length_cons]; omega) _ h
        · exact ih rest (by omega) _ h
        · cases rest with
          | nil => rfl
          | cons q rest =>
            simp only [List.length_cons] at hlen
            simp only [Get_fst, Bool.not_true, Bool.false_eq_true, if_false] at h ⊢
            exact ih rest (by omega) _ h
        · exact ih (p :: rest) (by simp only [List.length_cons]; omega) _ h
        · exact ih (p :: rest) (by simp only [List.length_cons]; omega) _ h

theorem ParseArguments_invalid (args : List (List Char))
    (h : (parseLoop args { Valid := true }).Valid = false) :
    (ParseArguments args).Valid = false := by
  simp only [ParseArguments]
  split_ifs
  · rfl
  · exact h

/-- C14: an argument list whose left-to-right processing reaches a token that is no
recognised flag, or `--monitor` / `--get` with no token after it, or `--set` with fewer
than two tokens after it, gives `Valid = false`, and `main` returns 1 after the usage
line. -/
theorem usage_error_invalid (args : List (List Char))
    (h : reachesUsageError args = true) :
    (ParseArguments args).Valid = false ∧ mainUsageExit args = some 1 := by
  have hv : (ParseArguments args).Valid = false :=
    ParseArguments_invalid args (parseLoop_reaches args.length args (le_refl _) _ h)
  exact ⟨hv, by simp [mainUsageExit, hv]⟩

/-- An unknown flag after `-i`, and `-s` with one parameter after `-v`. -/
theorem usage_error_invalid_witness :
    ((ParseArguments ["-i".toList, "--bogus".toList]).Valid = false ∧
        mainUsageExit ["-i".toList, "--bogus".toList] = some 1) ∧
      ((ParseArguments ["-v".toList, "-s".toList, "0x10".toList]).Valid = false ∧
        mainUsageExit ["-v".toList, "-s".toList, "0x10".toList] = some 1) :=
  ⟨usage_error_invalid ["-i".toList, "--bogus".toList] (by decide),
    usage_error_invalid ["-v".toList, "-s".toList, "0x10".toList] (by decide)⟩

theorem parseLoop_keeps (n : Nat) :
    ∀ (args : List (List Char)), args.length ≤ n → ∀ (a : Arguments),
      (a.GetVCPFeature = true → (parseLoop args a).GetVCPFeature = true) ∧
        (a.SetVCPFeature = true → (parseLoop args a).SetVCPFeature = true) := by
  induction n with
  | zero =>
    intro args hlen a
    cases args with
    | nil => exact ⟨fun h => h, fun h => h⟩
    | cons arg rest => simp at hlen
  | succ n ih =>
    intro args hlen a
    cases args with
    | nil => exact ⟨fun h => h, fun h => h⟩
    | cons arg rest =>
      cases rest with
      | nil =>
        cases hc : classify arg <;> simp [parseLoop, hc]
      | cons p rest =>
        simp only [List.length_cons] at hlen
        cases hc : classify arg <;>
          simp only [parseLoop, hc, Get_fst, Bool.not_true, Bool.false_eq_true, if_false]
        · exact ⟨fun h => (ih rest (by omega) _).1 h, fun h => (ih rest (by omega) _).2 h⟩
        · exact ⟨fun h => (ih (p :: rest) (by simp only [List.length_cons]; omega) _).1 h,
            fun h => (ih (p :: rest) (by simp only [List.length_cons]; omega) _).2 h⟩
        · exact ⟨fun h => (ih (p :: rest) (by simp only [List.length_cons]; omega) _).1 h,
            fun h => (ih (p :: rest) (by simp only [List.length_cons]; omega) _).2 h⟩
        · exact ⟨fun _ => (ih rest (by omega) _).1 rfl, fun h => (ih rest (by omega) _).2 h⟩
        · cases rest with
          | nil => exact ⟨fun h => h, fun _ => rfl⟩
          | cons q rest =>
            simp only [List.length_cons] at hlen
            simp only [Get_fst, Bool.not_true, Bool.false_eq_true, if_false]
            exact ⟨fun h => (ih rest (by omega) _).1 h, fun _ => (ih rest (by omega) _).2 rfl⟩
        · exact ⟨fun h => (ih (p :: rest) (by simp only [List.length_cons]; omega) _).1 h,
            fun h => (ih (p :: rest) (by simp only [List.length_cons]; omega) _).2 h⟩
        · exact ⟨fun h => (ih (p :: rest) (by simp only [List.length_cons]; omega) _).1 h,
            fun h => (ih (p :: rest) (by simp only [List.length_cons]; omega) _).2 h⟩
        · exact ⟨fun h => h, fun h => h⟩

theorem processedFlags_one (arg : List Char) :
    processedFlags [arg] =
      match classify arg with
      | Flag.unsupported => []
      | f => [f] := by
  cases hc : classify arg <;> simp [processedFlags, hc]

theorem processedFlags_two (arg p : List Char) (rest : List (List Char)) :
    processedFlags (arg :: p :: rest) =
      match classify arg with
      | Flag.unsupported => []
      | Flag.monitor => Flag.monitor :: processedFlags rest
      | Flag.get => Flag.get :: processedFlags rest
      | Flag.set =>
        match rest with
        | [] => [Flag.set]
        | _ :: rest => Flag.set :: processedFlags rest
      | Flag.info => Flag.info :: processedFlags (p :: rest)
      | Flag.capabilities => Flag.capabilities :: processedFlags (p :: rest)
      | Flag.verify => Flag.verify :: processedFlags (p :: rest)
      | Flag.toggle => Flag.toggle :: processedFlags (p :: rest) := by
  cases rest with
  | nil => cases hc : classify arg <;> simp [processedFlags, hc]
  | cons q rest => cases hc : classify arg <;> simp [processedFlags, hc]

theorem parseLoop_processed (n : Nat) :
    ∀ (args : List (List Char)), args.length ≤ n → ∀ (a : Arguments),
      (Flag.get ∈ processedFlags args → (parseLoop args a).GetVCPFeature = true) ∧
        (Flag.set ∈ processedFlags args → (parseLoop args a).SetVCPFeature = true) := by
  induction n with
  | zero =>
    intro args hlen a
    cases args with
    | nil => simp [processedFlags]
    | cons arg rest => simp at hlen
  | succ n ih =>
    intro args hlen a
    cases args with
    | nil => simp [processedFlags]
    | cons arg rest =>
      cases rest with
      | nil =>
        rw [processedFlags_one]
        cases hc : classify arg <;> simp [parseLoop, hc]
      | cons p rest =>
        simp only [List.length_cons] at hlen
        rw [processedFlags_two]
        cases hc : classify arg <;>
          simp only [parseLoop, hc, Get_fst, Bool.not_true, Bool.false_eq_true,
            if_false, List.mem_cons, reduceCtorEq, false_or, true_or, true_implies]
        · exact ih rest (by omega) _
        · exact ih (p :: rest) (by simp only [List.length_cons]; omega) _
        · exact ih (p :: rest) (by simp only [List.length_cons]; omega) _
        · exact ⟨(parseLoop_keeps rest.length rest (le_refl _) _).1 rfl,
            (ih rest (by omega) _).2⟩
        · cases rest with
          | nil => simp
          | cons q rest =>
            simp only [List.length_cons] at hlen
            simp only [Get_fst, Bool.not_true, Bool.false_eq_true, if_false, List.mem_cons,
              reduceCtorEq, false_or, true_or, true_implies]
            exact ⟨(ih rest (by omega) _).1,
              (parseLoop_keeps rest.length rest (le_refl _) _).2 rfl⟩
        · exact ih (p :: rest) (by simp only [List.length_cons]; omega) _
        · exact ih (p :: rest) (by simp only [List.length_cons]; omega) _
        · simp

/-- C15: an argument list in which both a `--get` flag and a `--set` flag are
processed, in either order and among any other flags, gives `Valid = false`, and
`main` returns 1 after the usage line. -/
theorem get_and_set_invalid (args : List (List Char))
    (hget : Flag.get ∈ processedFlags args) (hset : Flag.set ∈ processedFlags args) :
    (ParseArguments args).Valid = false ∧ mainUsageExit args = some 1 := by
  have h := parseLoop_processed args.length args (le_refl _) { Valid := true }
  have hv : (ParseArguments args).Valid = false := by
    simp only [ParseArguments, h.1 hget, h.2 hset]
    rfl
  exact ⟨hv, by simp [mainUsageExit, hv]⟩

/-- The flags `-s 0x10 1`, `--info`, `-G 0x10` in this order. -/
theorem get_and_set_invalid_witness :
    (ParseArguments ["-s".toList, "0x10".toList, "1".toList, "--info".toList, "-G".toList,
        "0x10".toList]).Valid = false ∧
      mainUsageExit ["-s".toList, "0x10".toList, "1".toList, "--info".toList, "-G".toList,
        "0x10".toList] = some 1 :=
  get_and_set_invalid
    ["-s".toList, "0x10".toList, "1".toList, "--info".toList, "-G".toList, "0x10".toList]
    (by decide) (by decide)

/-! ## Empty capabilities string -/

/-- C16, as stated, fails: with the empty capabilities string fetched (a buffer holding
only the terminating NUL), the result of `GetLowLevelCapabilities` is the
value-initialised record, which is not valid, and the driver writes its failure
line. -/
theorem empty_capabilities_not_valid :
    GetLowLevelCapabilities (some [Char.ofNat 0]) = .ok {} ∧
      (∀ root, GetLowLevelCapabilities (some [Char.ofNat 0]) ≠ .ok ⟨true, root⟩) ∧
      (GetLowLevelCapabilities (some [Char.ofNat 0])).map PrintLowLevelCapabilities =
        .ok (some "Could not obtain low-level capabilities.") := by
  refine ⟨by decide, ?_, by decide⟩
  intro root h
  have hvalid : (match GetLowLevelCapabilities (some [Char.ofNat 0]) with
    | .ok c => c.Valid
    | .error _ => true) = true := by rw [h]
  revert hvalid
  decide

/-- C16, amended: when the fetch succeeds with a buffer that starts with the
terminating NUL, so that the capabilities string is empty, the parse has no first
element: `GetLowLevelCapabilities` returns a record with `Valid = false` and the driver
writes `Could not obtain low-level capabilities.` -/
theorem empty_capabilities_invalid (buffer : List Char)
    (h : buffer.head? = some (Char.ofNat 0)) :
    GetLowLevelCapabilities (some buffer) = .ok {} ∧
      (GetLowLevelCapabilities (some buffer)).map PrintLowLevelCapabilities =
        .ok (some "Could not obtain low-level capabilities.") := by
  have hres : GetLowLevelCapabilities (some buffer) = .ok {} := by
    cases buffer with
    | nil => simp at h
    | cons c rest =>
      simp only [List.head?_cons, Option.some.injEq] at h
      subst h
      have hall : (Char.ofNat 0 :: rest).all (fun c => decide (c.toNat ≠ 0)) = false := by
        simp [List.all_cons]
      have hstr : c_str (Char.ofNat 0 :: rest) = [] := by
        simp [c_str, List.takeWhile]
      simp only [GetLowLevelCapabilities, hall, hstr]
      rfl
  refine ⟨hres, ?_⟩
  rw [hres]
  rfl

/-- A buffer of two characters whose first is the terminating NUL. -/
theorem empty_capabilities_invalid_witness :
    GetLowLevelCapabilities (some [Char.ofNat 0, 'x']) = .ok {} ∧
      (GetLowLevelCapabilities (some [Char.ofNat 0, 'x'])).map PrintLowLevelCapabilities =
        .ok (some "Could not obtain low-level capabilities.") :=
  empty_capabilities_invalid [Char.ofNat 0, 'x'] (by decide)

/-! ## Groups with matched parentheses -/

theorem run_matched (g : List Char) :
    ∀ (frames : List (List Token × Token)), matchedFrom frames.length g = true →
      ∀ (token : Token) (tokens : List Token),
        ∃ out, out ≠ [] ∧ ∀ (stack : List (List Token × Token)) (rest : List Char),
          run (frames ++ stack) token tokens (g ++ ')' :: rest) = resume stack out rest := by
  induction g with
  | nil =>
    intro frames hm token tokens
    have hnil : frames = [] := by
      cases frames with
      | nil => rfl
      | cons f fs => simp [matchedFrom] at hm
    subst hnil
    refine ⟨tokens ++ [token], by simp, ?_⟩
    intro stack rest
    cases stack with
    | nil => simp [run, resume]
    | cons frame below => simp [run, resume]
  | cons c g ih =>
    intro frames hm token tokens
    by_cases hopen : c = '('
    · subst hopen
      simp only [matchedFrom, if_true] at hm
      obtain ⟨out, hne, hrun⟩ := ih ((tokens, token) :: frames) hm ⟨[], []⟩ token.Children
      refine ⟨out, hne, ?_⟩
      intro stack rest
      simp only [List.cons_append, run, if_true, List.append_eq]
      exact hrun stack rest
    · by_cases hclose : c = ')'
      · subst hclose
        cases frames with
        | nil => simp [matchedFrom] at hm
        | cons frame below =>
          simp only [matchedFrom, List.length_cons] at hm
          have hm2 : matchedFrom below.length g = true := by simpa using hm
          obtain ⟨out, hne, hrun⟩ :=
            ih below hm2 ⟨[], []⟩ (frame.1 ++ [⟨frame.2.Value, tokens ++ [token]⟩])
          refine ⟨out, hne, ?_⟩
          intro stack rest
          simp only [List.cons_append, run, List.append_eq]
          exact hrun stack rest
      · simp only [matchedFrom, if_neg hopen, if_neg hclose] at hm
        by_cases hspace : c = ' '
        · obtain ⟨out, hne, hrun⟩ := ih frames hm ⟨[], []⟩ (tokens ++ [token])
          refine ⟨out, hne, ?_⟩
          intro stack rest
          simp only [List.cons_append, run, if_neg hopen, if_neg hclose, if_pos hspace,
            List.append_eq]
          exact hrun stack rest
        · obtain ⟨out, hne, hrun⟩ := ih frames hm ⟨token.Value ++ [c], token.Children⟩ tokens
          refine ⟨out, hne, ?_⟩
          intro stack rest
          simp only [List.cons_append, run, if_neg hopen, if_neg hclose, if_neg hspace,
            List.append_eq]
          exact hrun stack rest

/-- C17: a token followed by a group with matched parentheses is a branch holding the
group's tokens: for `w` without separators and parentheses and `g` with matched
parentheses, `w(g)` tokenizes to the single token with value `w` whose children are
the tokens of `g)`, and there is at least one child. -/
theorem group_is_branch (w g : List Char) (hw : ∀ c ∈ w, c ≠ ' ' ∧ c ≠ '(' ∧ c ≠ ')')
    (hg : Matched g) :
    ∃ children, TokenizeLowLevelCapabilitiesString (g ++ [')']) = .ok children ∧
      children ≠ [] ∧
      TokenizeLowLevelCapabilitiesString (w ++ '(' :: (g ++ [')'])) = .ok [⟨w, children⟩] := by
  obtain ⟨out, hne, hrun⟩ := run_matched g [] hg ⟨[], []⟩ []
  have hword : w.all isWordChar = true := by
    rw [List.all_eq_true]
    intro c hc
    obtain ⟨h1, h2, h3⟩ := hw c hc
    simp [isWordChar, h1, h2, h3]
  refine ⟨out, ?_, hne, ?_⟩
  · rw [tokenize_eq_run]
    have := hrun [] []
    simp only [List.nil_append, resume] at this
    rw [this]
  · rw [tokenize_eq_run, run_value w hword]
    simp only [List.nil_append, run, if_true]
    have := hrun [([], ⟨w, []⟩)] []
    simp only [List.nil_append, resume] at this
    rw [this]
    simp [run]

/-- The group `02 60(0F 11)` after `vcp`, and a group after no character. -/
theorem group_is_branch_witness :
    (∃ children, TokenizeLowLevelCapabilitiesString ("02 60(0F 11)".toList ++ [')']) =
          .ok children ∧ children ≠ [] ∧
        TokenizeLowLevelCapabilitiesString
          ("vcp".toList ++ '(' :: ("02 60(0F 11)".toList ++ [')'])) = .ok [⟨"vcp".toList, children⟩]) ∧
      (∃ children, TokenizeLowLevelCapabilitiesString ("a".toList ++ [')']) =
          .ok children ∧ children ≠ [] ∧
        TokenizeLowLevelCapabilitiesString
          ([] ++ '(' :: ("a".toList ++ [')'])) = .ok [⟨[], children⟩]) :=
  ⟨group_is_branch "vcp".toList "02 60(0F 11)".toList (by decide) (by decide),
    group_is_branch [] "a".toList (by decide) (by decide)⟩

/-- C18: an unmatched `)` at top level ends the tokenization: for `s` with matched
parentheses, nothing after `s)` changes the result. -/
theorem unmatched_close_terminates (s t : List Char) (hs : Matched s) :
    TokenizeLowLevelCapabilitiesString (s ++ ')' :: t) =
      TokenizeLowLevelCapabilitiesString (s ++ [')']) := by
  obtain ⟨out, -, hrun⟩ := run_matched s [] hs ⟨[], []⟩ []
  rw [tokenize_eq_run, tokenize_eq_run]
  have h1 := hrun [] t
  have h2 := hrun [] []
  simp only [List.nil_append, resume] at h1 h2
  rw [h1, h2]

/-- What follows the unmatched `)` of `a(b) c) d(e` is ignored. -/
theorem unmatched_close_terminates_witness :
    TokenizeLowLevelCapabilitiesString ("a(b) c".toList ++ ')' :: " d(e".toList) =
      TokenizeLowLevelCapabilitiesString ("a(b) c".toList ++ [')']) :=
  unmatched_close_terminates "a(b) c".toList " d(e".toList (by decide)

/-! ## What `Verify` returns and how many reads it performs -/

theorem verifyLoop_first_match {σ : Type} (T : Transport σ) (vcpCode vcpValue : Nat)
    (polls : Nat) :
    ∀ (w : World σ) (result : VCPFeatureResult) (pre : List VCPFeatureResult)
      (r : VCPFeatureResult) (post : List VCPFeatureResult),
      readReplies T vcpCode polls w = pre ++ r :: post →
      (∀ x ∈ pre, ¬ (x.Success = true ∧ x.CurrentValue = vcpValue)) →
      r.Success = true ∧ r.CurrentValue = vcpValue →
      (verifyLoop T vcpCode vcpValue polls w result).2 = r ∧
        (verifyLoop T vcpCode vcpValue polls w result).1.calls =
          w.calls ++ List.replicate (pre.length + 1) (Call.read (vcpCode % 256)) := by
  induction polls with
  | zero =>
    intro w result pre r post h
    simp [readReplies] at h
  | succ polls ih =>
    intro w result pre r post h hpre hr
    simp only [readReplies] at h
    cases pre with
    | nil =>
      simp only [List.nil_append, List.cons.injEq] at h
      have hm : (GetVCPFeature T w vcpCode).2.Success = true ∧
          (GetVCPFeature T w vcpCode).2.CurrentValue = vcpValue := by rw [h.1]; exact hr
      simp only [verifyLoop, if_pos hm]
      exact ⟨h.1, by simp [GetVCPFeature]⟩
    | cons x pre =>
      simp only [List.cons_append, List.cons.injEq] at h
      have hm : ¬ ((GetVCPFeature T w vcpCode).2.Success = true ∧
          (GetVCPFeature T w vcpCode).2.CurrentValue = vcpValue) := by
        rw [h.1]
        exact hpre x (by simp)
      simp only [verifyLoop, if_neg hm]
      obtain ⟨h1, h2⟩ := ih (GetVCPFeature T w vcpCode).1 (GetVCPFeature T w vcpCode).2 pre r post
        h.2 (fun y hy => hpre y (by simp [hy])) hr
      refine ⟨h1, ?_⟩
      rw [h2]
      simp [GetVCPFeature, List.replicate_succ]

theorem verifyLoop_no_match_calls {σ : Type} (T : Transport σ) (vcpCode vcpValue : Nat)
    (polls : Nat) :
    ∀ (w : World σ) (result : VCPFeatureResult),
      (∀ x ∈ readReplies T vcpCode polls w, ¬ (x.Success = true ∧ x.CurrentValue = vcpValue)) →
      (verifyLoop T vcpCode vcpValue polls w result).1.calls =
        w.calls ++ List.replicate polls (Call.read (vcpCode % 256)) := by
  induction polls with
  | zero => intro w result _; simp [verifyLoop]
  | succ polls ih =>
    intro w result h
    have hm : ¬ ((GetVCPFeature T w vcpCode).2.Success = true ∧
        (GetVCPFeature T w vcpCode).2.CurrentValue = vcpValue) :=
      h _ (by simp [readReplies])
    simp only [verifyLoop, if_neg hm]
    rw [ih _ _ (fun x hx => h x (by simp [readReplies, hx]))]
    simp [GetVCPFeature, List.replicate_succ]

/-- C19: over the replies to the reads before the deadline: if no reply is successful
with the expected value, `Verify` performs every read and returns the last reply, with
`Success = false` when there is no reply or no reply succeeded; if some reply matches,
`Verify` returns the first matching reply and performs no read after it. -/
theorem verify_returns_last_or_first_match {σ : Type} (T : Transport σ) (polls : Nat)
    (uninit : VCPFeatureResult) (w : World σ) (vcpCode expected : Nat) :
    ((∀ x ∈ readReplies T vcpCode polls w, ¬ (x.Success = true ∧ x.CurrentValue = expected)) →
      (Verify T polls uninit w vcpCode expected).2 =
          (readReplies T vcpCode polls w).getLast?.getD { uninit with Success := false } ∧
        (Verify T polls uninit w vcpCode expected).1.calls =
          w.calls ++ List.replicate polls (Call.read (vcpCode % 256)) ∧
        ((∀ x ∈ readReplies T vcpCode polls w, x.Success = false) →
          (Verify T polls uninit w vcpCode expected).2.Success = false)) ∧
    (∀ pre r post, readReplies T vcpCode polls w = pre ++ r :: post →
      (∀ x ∈ pre, ¬ (x.Success = true ∧ x.CurrentValue = expected)) →
      r.Success = true ∧ r.CurrentValue = expected →
      (Verify T polls uninit w vcpCode expected).2 = r ∧
        (Verify T polls uninit w vcpCode expected).1.calls =
          w.calls ++ List.replicate (pre.length + 1) (Call.read (vcpCode % 256))) := by
  refine ⟨?_, ?_⟩
  · intro hno
    have hlast : (Verify T polls uninit w vcpCode expected).2 =
        (readReplies T vcpCode polls w).getLast?.getD { uninit with Success := false } := by
      rcases verifyLoop_result T vcpCode expected polls w { uninit with Success := false } with
        ⟨⟨r, hr, hrm⟩, -⟩ | ⟨-, hlast⟩
      · exact absurd hrm (hno r hr)
      · exact hlast
    refine ⟨hlast, verifyLoop_no_match_calls T vcpCode expected polls w _ hno, ?_⟩
    intro hfail
    rw [hlast]
    cases hrep : (readReplies T vcpCode polls w).getLast? with
    | none => rfl
    | some r => exact hfail r (List.mem_of_getLast?_eq_some hrep)
  · intro pre r post h hpre hr
    exact verifyLoop_first_match T vcpCode expected polls w _ pre r post h hpre hr

/-- Against the counting transport the third reply is the first with value 2: it is
returned after three reads, although five reads fit before the deadline. -/
theorem verify_returns_last_or_first_match_witness :
    (Verify countingTransport 5 ⟨false, 0, 0, 0⟩ ⟨0, []⟩ 0x10 2).2 = ⟨true, 0, 2, 255⟩ ∧
      (Verify countingTransport 5 ⟨false, 0, 0, 0⟩ ⟨0, []⟩ 0x10 2).1.calls =
        [] ++ List.replicate (2 + 1) (Call.read (0x10 % 256)) :=
  (verify_returns_last_or_first_match countingTransport 5 ⟨false, 0, 0, 0⟩ ⟨0, []⟩ 0x10 2).2
    [⟨true, 0, 0, 255⟩, ⟨true, 0, 1, 255⟩] ⟨true, 0, 2, 255⟩
    [⟨true, 0, 3, 255⟩, ⟨true, 0, 4, 255⟩] (by decide) (by decide) (by decide)

/-! ## The result of `Toggle` -/

/-- C20: `Toggle` returns true exactly when the read of `0x60` succeeds, the write of
the toggled value succeeds, and verification is off or `Verify` reports success; a
failed read ends it with false after that single read, without a write; a failed write
ends it with false after the read and the write, without a verification read. -/
theorem toggle_result {σ : Type} (T : Transport σ) (polls : Nat)
    (uninit : VCPFeatureResult) (w : World σ) (verify : Bool) :
    ((Toggle T polls uninit w verify).2 = true ↔
      (GetVCPFeature T w 0x60).2.Success = true ∧
        (SetVCPFeature T (GetVCPFeature T w 0x60).1 0x60
          (if (GetVCPFeature T w 0x60).2.CurrentValue = 0x11 then 0x0F else 0x11)).2 = true ∧
        (verify = false ∨
          (Verify T polls uninit
            (SetVCPFeature T (GetVCPFeature T w 0x60).1 0x60
              (if (GetVCPFeature T w 0x60).2.CurrentValue = 0x11 then 0x0F else 0x11)).1
            0x60
            (if (GetVCPFeature T w 0x60).2.CurrentValue = 0x11 then 0x0F
              else 0x11)).2.Success = true)) ∧
    ((GetVCPFeature T w 0x60).2.Success = false →
      (Toggle T polls uninit w verify).2 = false ∧
        (Toggle T polls uninit w verify).1.calls = w.calls ++ [Call.read 0x60]) ∧
    ((GetVCPFeature T w 0x60).2.Success = true →
      (SetVCPFeature T (GetVCPFeature T w 0x60).1 0x60
        (if (GetVCPFeature T w 0x60).2.CurrentValue = 0x11 then 0x0F else 0x11)).2 = false →
      (Toggle T polls uninit w verify).2 = false ∧
        (Toggle T polls uninit w verify).1.calls =
          w.calls ++ [Call.read 0x60,
            Call.write 0x60
              (if (GetVCPFeature T w 0x60).2.CurrentValue = 0x11 then 0x0F else 0x11)]) := by
  refine ⟨?_, ?_, ?_⟩
  · simp only [Toggle]
    cases hread : (GetVCPFeature T w 0x60).2.Success
    · simp
    · simp only [if_true, true_and]
      cases hwrite : (SetVCPFeature T (GetVCPFeature T w 0x60).1 0x60
          (if (GetVCPFeature T w 0x60).2.CurrentValue = 0x11 then 0x0F else 0x11)).2
      · simp
      · cases verify <;> simp
  · intro hread
    simp only [Toggle, hread]
    exact ⟨rfl, rfl⟩
  · intro hread hwrite
    simp only [Toggle, hread, if_true, hwrite]
    refine ⟨rfl, ?_⟩
    by_cases hc : (GetVCPFeature T w 0x60).2.CurrentValue = 0x11
    · rw [if_pos hc]
      simp [SetVCPFeature, GetVCPFeature]
    · rw [if_neg hc]
      simp [SetVCPFeature, GetVCPFeature]

/-- A dead transport gets one read and no write; a transport refusing writes gets the
read and the write of `0x0F` and no further read, even with verification on. -/
theorem toggle_result_witness :
    ((Toggle deadTransport 3 ⟨false, 0, 0, 0⟩ ⟨(), []⟩ true).2 = false ∧
        (Toggle deadTransport 3 ⟨false, 0, 0, 0⟩ ⟨(), []⟩ true).1.calls =
          [] ++ [Call.read 0x60]) ∧
      ((Toggle readOnlyTransport 3 ⟨false, 0, 0, 0⟩ ⟨(), []⟩ true).2 = false ∧
        (Toggle readOnlyTransport 3 ⟨false, 0, 0, 0⟩ ⟨(), []⟩ true).1.calls =
          [] ++ [Call.read 0x60,
            Call.write 0x60
              (if (GetVCPFeature readOnlyTransport ⟨(), []⟩ 0x60).2.CurrentValue = 0x11 then 0x0F
                else 0x11)]) :=
  ⟨(toggle_result deadTransport 3 ⟨false, 0, 0, 0⟩ ⟨(), []⟩ true).2.1 rfl,
    (toggle_result readOnlyTransport 3 ⟨false, 0, 0, 0⟩ ⟨(), []⟩ true).2.2 rfl rfl⟩


/-! ## Token values hold no separator and no parenthesis -/

theorem tokensWithinAll_append (a b : List Token) :
    tokensWithinAll (a ++ b) = tokensWithinAll a ++ tokensWithinAll b := by
  induction a with
  | nil => rfl
  | cons t a ih => simp [tokensWithinAll, ih]

theorem valuesClean_append {a b : List Token} (ha : ValuesClean a) (hb : ValuesClean b) :
    ValuesClean (a ++ b) := by
  intro t ht
  rw [tokensWithinAll_append, List.mem_append] at ht
  rcases ht with ht | ht
  · exact ha t ht
  · exact hb t ht

theorem valuesClean_single {value : List Char} {children : List Token}
    (hv : ∀ c ∈ value, c ≠ ' ' ∧ c ≠ '(' ∧ c ≠ ')') (hc : ValuesClean children) :
    ValuesClean [⟨value, children⟩] := by
  intro t ht
  simp only [tokensWithinAll, tokensWithin, List.append_nil, List.mem_cons] at ht
  rcases ht with rfl | ht
  · exact hv
  · exact hc t ht

theorem valuesClean_token {token : Token}
    (hv : ∀ c ∈ token.Value, c ≠ ' ' ∧ c ≠ '(' ∧ c ≠ ')') (hc : ValuesClean token.Children) :
    ValuesClean [token] := by
  obtain ⟨value, children⟩ := token
  exact valuesClean_single hv hc

theorem valuesClean_nil : ValuesClean [] := by
  intro t ht
  simp [tokensWithinAll] at ht

theorem run_valuesClean (s : List Char) :
    ∀ (stack : List (List Token × Token)) (token : Token) (tokens : List Token),
      (∀ frame ∈ stack, ValuesClean frame.1 ∧ ∀ c ∈ frame.2.Value, c ≠ ' ' ∧ c ≠ '(' ∧ c ≠ ')') →
      (∀ c ∈ token.Value, c ≠ ' ' ∧ c ≠ '(' ∧ c ≠ ')') → ValuesClean token.Children →
      ValuesClean tokens → ValuesClean (run stack token tokens s) := by
  induction s with
  | nil =>
    intro stack
    induction stack with
    | nil => intro token tokens _ _ _ htoks; simpa [run] using htoks
    | cons frame below ih =>
      intro token tokens hst htok hch htoks
      have hstep := ih ⟨[], []⟩ (frame.1 ++ [⟨frame.2.Value, tokens⟩])
        (fun f hf => hst f (by simp [hf])) (by simp) valuesClean_nil
        (valuesClean_append (hst frame (by simp)).1
          (valuesClean_single (hst frame (by simp)).2 htoks))
      simpa [run] using hstep
  | cons c s ih =>
    intro stack token tokens hst htok hch htoks
    by_cases hopen : c = '('
    · simp only [run, if_pos hopen]
      refine ih _ _ _ ?_ (by simp) valuesClean_nil hch
      intro f hf
      simp only [List.mem_cons] at hf
      rcases hf with rfl | hf
      · exact ⟨htoks, htok⟩
      · exact hst f hf
    · by_cases hclose : c = ')'
      · simp only [run, if_neg hopen, if_pos hclose]
        cases stack with
        | nil =>
          exact valuesClean_append htoks (valuesClean_token htok hch)
        | cons frame below =>
          refine ih _ _ _ (fun f hf => hst f (by simp [hf])) (by simp) valuesClean_nil ?_
          exact valuesClean_append (hst frame (by simp)).1
            (valuesClean_single (hst frame (by simp)).2
              (valuesClean_append htoks (valuesClean_token htok hch)))
      · by_cases hspace : c = ' '
        · simp only [run, if_neg hopen, if_neg hclose, if_pos hspace]
          exact ih _ _ _ hst (by simp) valuesClean_nil
            (valuesClean_append htoks (valuesClean_token htok hch))
        · simp only [run, if_neg hopen, if_neg hclose, if_neg hspace]
          refine ih _ _ _ hst ?_ hch htoks
          intro d hd
          simp only [List.mem_append, List.mem_singleton] at hd
          rcases hd with hd | rfl
          · exact htok d hd
          · exact ⟨hspace, hopen, hclose⟩

/-- C21: for every input string the tokenizer returns, and every token of the result,
at every nesting depth, has a value containing none of `' '`, `'('` and `')'`. -/
theorem token_values_clean (s : List Char) :
    ∃ tokens, TokenizeLowLevelCapabilitiesString s = .ok tokens ∧
      ∀ t ∈ tokensWithinAll tokens, ∀ c ∈ t.Value, c ≠ ' ' ∧ c ≠ '(' ∧ c ≠ ')' :=
  ⟨run [] ⟨[], []⟩ [] s, tokenize_eq_run s,
    run_valuesClean s [] ⟨[], []⟩ [] (by simp) (by simp) valuesClean_nil valuesClean_nil⟩

/-! ## A separator after a closing parenthesis -/

theorem run_prepend (pre : List Token) (t : List Char) :
    ∀ (stack : List (List Token × Token)) (token : Token) (tokens : List Token),
      run [] token (pre ++ tokens) t = pre ++ run [] token tokens t ∧
        ∀ (bottom : List Token) (held : Token),
          run (stack ++ [(pre ++ bottom, held)]) token tokens t =
            pre ++ run (stack ++ [(bottom, held)]) token tokens t := by
  induction t with
  | nil =>
    intro stack token tokens
    refine ⟨by simp [run], ?_⟩
    intro bottom held
    simp [run, List.foldl_append]
  | cons c t ih =>
    intro stack token tokens
    by_cases hopen : c = '('
    · refine ⟨?_, ?_⟩
      · simp only [run, if_pos hopen]
        exact (ih [] ⟨[], []⟩ token.Children).2 tokens token
      · intro bottom held
        simp only [run, if_pos hopen]
        exact (ih ((tokens, token) :: stack) ⟨[], []⟩ token.Children).2 bottom held
    · by_cases hclose : c = ')'
      · refine ⟨?_, ?_⟩
        · simp [run, hclose]
        · intro bottom held
          simp only [run, if_neg hopen, if_pos hclose]
          cases stack with
          | nil =>
            simp only [List.nil_append, List.append_assoc]
            exact (ih [] ⟨[], []⟩ _).1
          | cons frame below =>
            simp only [List.cons_append]
            exact (ih below ⟨[], []⟩ _).2 bottom held
      · by_cases hspace : c = ' '
        · refine ⟨?_, ?_⟩
          · simp only [run, if_neg hopen, if_neg hclose, if_pos hspace, List.append_assoc]
            exact (ih [] ⟨[], []⟩ _).1
          · intro bottom held
            simp only [run, if_neg hopen, if_neg hclose, if_pos hspace]
            exact (ih stack ⟨[], []⟩ _).2 bottom held
        · refine ⟨?_, ?_⟩
          · simp only [run, if_neg hopen, if_neg hclose, if_neg hspace]
            exact (ih [] _ _).1
          · intro bottom held
            simp only [run, if_neg hopen, if_neg hclose, if_neg hspace]
            exact (ih stack _ _).2 bottom held

theorem run_matched_state (s : List Char) :
    ∀ (frames : List (List Token × Token)), matchedFrom frames.length s = true →
      ∀ (token : Token) (tokens : List Token),
        ∃ token2 tokens2, (s = [] → token2 = token) ∧
          (s.getLast? = some ')' → token2 = ⟨[], []⟩) ∧
          ∀ (stack : List (List Token × Token)) (rest : List Char),
            run (frames ++ stack) token tokens (s ++ rest) = run stack token2 tokens2 rest := by
  induction s with
  | nil =>
    intro frames hm token tokens
    have hnil : frames = [] := by
      cases frames with
      | nil => rfl
      | cons f fs => simp [matchedFrom] at hm
    subst hnil
    exact ⟨token, tokens, fun _ => rfl, by simp, fun stack rest => rfl⟩
  | cons c s ih =>
    intro frames hm token tokens
    have hlast : ∀ {token2 : Token}, (s.getLast? = some ')' → token2 = ⟨[], []⟩) →
        (s = [] → c = ')' → token2 = ⟨[], []⟩) →
        (c :: s).getLast? = some ')' → token2 = ⟨[], []⟩ := by
      intro token2 h1 h2 h
      cases s with
      | nil =>
        simp only [List.getLast?_singleton, Option.some.injEq] at h
        exact h2 rfl h
      | cons d s => exact h1 (by simpa [List.getLast?_cons_cons] using h)
    by_cases hopen : c = '('
    · subst hopen
      simp only [matchedFrom, if_true] at hm
      obtain ⟨token2, tokens2, -, hl, hrun⟩ :=
        ih ((tokens, token) :: frames) hm ⟨[], []⟩ token.Children
      refine ⟨token2, tokens2, by simp, hlast hl (fun _ h => absurd h (by decide)), ?_⟩
      intro stack rest
      simp only [List.cons_append, run, if_true, List.append_eq]
      exact hrun stack rest
    · by_cases hclose : c = ')'
      · subst hclose
        cases frames with
        | nil => simp [matchedFrom] at hm
        | cons frame below =>
          simp only [matchedFrom, List.length_cons] at hm
          have hm2 : matchedFrom below.length s = true := by simpa using hm
          obtain ⟨token2, tokens2, hnil, hl, hrun⟩ :=
            ih below hm2 ⟨[], []⟩ (frame.1 ++ [⟨frame.2.Value, tokens ++ [token]⟩])
          refine ⟨token2, tokens2, by simp, hlast hl (fun hs _ => hnil hs), ?_⟩
          · intro stack rest
            simp only [List.cons_append, run, List.append_eq]
            exact hrun stack rest
      · simp only [matchedFrom, if_neg hopen, if_neg hclose] at hm
        by_cases hspace : c = ' '
        · obtain ⟨token2, tokens2, -, hl, hrun⟩ := ih frames hm ⟨[], []⟩ (tokens ++ [token])
          refine ⟨token2, tokens2, by simp, hlast hl (fun _ h => absurd h hclose), ?_⟩
          intro stack rest
          simp only [List.cons_append, run, if_neg hopen, if_neg hclose, if_pos hspace,
            List.append_eq]
          exact hrun stack rest
        · obtain ⟨token2, tokens2, -, hl, hrun⟩ :=
            ih frames hm ⟨token.Value ++ [c], token.Children⟩ tokens
          refine ⟨token2, tokens2, by simp, hlast hl (fun _ h => absurd h hclose), ?_⟩
          intro stack rest
          simp only [List.cons_append, run, if_neg hopen, if_neg hclose, if_neg hspace,
            List.append_eq]
          exact hrun stack rest

/-- C22: a separator after a closing parenthesis emits an empty leaf: for `s` with
matched parentheses that ends in `)` and any `t`, the tokens of `s`, a space and `t`
are the tokens of `s`, then one token with empty value and no children, then the
tokens of `t`. -/
theorem separator_after_group (s t : List Char) (hs : Matched s)
    (hend : s.getLast? = some ')') :
    ∃ first second, TokenizeLowLevelCapabilitiesString s = .ok first ∧
      TokenizeLowLevelCapabilitiesString t = .ok second ∧
      TokenizeLowLevelCapabilitiesString (s ++ ' ' :: t) =
        .ok (first ++ ⟨[], []⟩ :: second) := by
  obtain ⟨token2, tokens2, -, hl, hrun⟩ := run_matched_state s [] hs ⟨[], []⟩ []
  have htok := hl hend
  subst htok
  refine ⟨tokens2, run [] ⟨[], []⟩ [] t, ?_, tokenize_eq_run t, ?_⟩
  · rw [tokenize_eq_run]
    have := hrun [] []
    simp only [List.nil_append, List.append_nil] at this
    rw [this]
    rfl
  · rw [tokenize_eq_run]
    have := hrun [] (' ' :: t)
    simp only [List.nil_append] at this
    rw [this]
    have h1 : (' ' : Char) ≠ '(' := by decide
    have h2 : (' ' : Char) ≠ ')' := by decide
    simp only [run, if_neg h1, if_neg h2, if_true]
    have := (run_prepend (tokens2 ++ [⟨[], []⟩]) t [] ⟨[], []⟩ []).1
    simp only [List.append_nil] at this
    rw [this]
    simp

/-- The string `a(b) c(d)` gives three top-level tokens, the middle one empty. -/
theorem separator_after_group_witness :
    (∃ first second, TokenizeLowLevelCapabilitiesString "a(b)".toList = .ok first ∧
      TokenizeLowLevelCapabilitiesString "c(d)".toList = .ok second ∧
      TokenizeLowLevelCapabilitiesString ("a(b)".toList ++ ' ' :: "c(d)".toList) =
        .ok (first ++ ⟨[], []⟩ :: second)) ∧
      TokenizeLowLevelCapabilitiesString "a(b) c(d)".toList =
        .ok [⟨['a'], [⟨['b'], []⟩]⟩, ⟨[], []⟩, ⟨['c'], [⟨['d'], []⟩]⟩] :=
  ⟨separator_after_group "a(b)".toList "c(d)".toList (by decide) (by decide), by decide⟩

end MonitorUtil
